import Mathlib

/-!
Verification of the mazeSolver program (`main.py`).

The development shallowly embeds the program: the grid is the association
list built exactly the way `Maze.__init__` fills the Python dict, the two
searches are the fueled translations of `breadth_first_search` and
`depth_first_search` (the fuel is an embedding artifact; the outcome
`SearchOut.outOfFuel` marks exhaustion and is proved unreachable where a
claim needs it), and the renderers mirror the character-building loops of
`__str__`, `view_bfs` and `view_dfs`.  Positions are pairs of integers
because the neighbour function subtracts 1 and may leave the grid.
Python exceptions are modelled as explicit error values.
-/

/-- The four cell kinds of the `CellType` enum in `main.py`. -/
inductive CellType where
  | FREE
  | WALL
  | START
  | END
deriving Repr, DecidableEq

/-- The canonical character of each cell kind (the enum member values). -/
def CellType.value : CellType → Char
  | .FREE => ' '
  | .WALL => '#'
  | .START => 'S'
  | .END => 'E'

/-- The reverse lookup `CellType.chars_to_ct` from characters to kinds;
`none` models the `KeyError` branch that raises `InvalidMazeChar`. -/
def charsToCt (c : Char) : Option CellType :=
  if c = ' ' then some .FREE
  else if c = '#' then some .WALL
  else if c = 'S' then some .START
  else if c = 'E' then some .END
  else none

/-- A grid position `(row, column)`; integers because `_point_neighbours`
subtracts 1 and can produce coordinates outside the grid. -/
abbrev Point := Int × Int

/-- The grid dictionary `self.grid`, as the association list of its
insertions in order (all keys are distinct in the program). -/
abbrev Grid := List (Point × CellType)

/-- Dictionary lookup `self.grid[p]`; `none` is a missing key
(`p not in self.grid`). -/
def gridFind : Grid → Point → Option CellType
  | [], _ => none
  | (q, k) :: rest, p => if p = q then some k else gridFind rest p

/-- `Maze._point_neighbours`: the four axis neighbours in the fixed source
order down, up, right, left. -/
def pointNeighbours (p : Point) : List Point :=
  [(p.1 + 1, p.2), (p.1 - 1, p.2), (p.1, p.2 + 1), (p.1, p.2 - 1)]

/-- The exceptions raised by `Maze.__init__`.  `inconsistentRowLength`
models the failed `assert` on line lengths and `emptyMazeIndexError` the
`IndexError` of `raw_maze[0]` when no line survives the filter. -/
inductive MazeError where
  | invalidMazeChar : Char → Point → MazeError
  | multipleStartError : Point → MazeError
  | noStartError : MazeError
  | inconsistentRowLength : MazeError
  | emptyMazeIndexError : MazeError
deriving Repr, DecidableEq

/-- The maze object: the fields set by `Maze.__init__`. -/
structure Maze where
  grid : Grid
  grid_corner : Nat × Nat
  start_point : Point
  bfs_solution : Option (List Point)
  dfs_solution : Option (List Point)
deriving Repr, DecidableEq

/-- `x.startswith("//")` on a line. -/
def isCommentLine : List Char → Bool
  | '/' :: '/' :: _ => true
  | _ => false

/-- The filter of `__init__`: keep lines that are nonempty and are not
comments. -/
def keepLine (l : List Char) : Bool := l.length != 0 && !(isCommentLine l)

/-- The inner loop of `__init__` over one line: fill the grid dict,
detect invalid characters and a second start.  `i` is the line index,
the second integer argument the character index. -/
def scanLine (i : Int) : List Char → Int → Grid → Option Point →
    Except MazeError (Grid × Option Point)
  | [], _, g, st => .ok (g, st)
  | ch :: rest, j, g, st =>
    match charsToCt ch with
    | none => .error (.invalidMazeChar ch (i, j))
    | some ct =>
      if ct = CellType.START then
        match st with
        | some _ => .error (.multipleStartError (i, j))
        | none => scanLine i rest (j + 1) (g ++ [((i, j), ct)]) (some (i, j))
      else scanLine i rest (j + 1) (g ++ [((i, j), ct)]) st

/-- The outer loop of `__init__` over the kept lines. -/
def scanLines : List (List Char) → Int → Grid → Option Point →
    Except MazeError (Grid × Option Point)
  | [], _, g, st => .ok (g, st)
  | l :: rest, i, g, st =>
    match scanLine i l 0 g st with
    | .error e => .error e
    | .ok (g', st') => scanLines rest (i + 1) g' st'

/-- `Maze.__init__` on the newline-split lines of the maze file (file
reading itself is input-output glue outside the core). -/
def Maze.initLines (ls : List (List Char)) : Except MazeError Maze :=
  let raw := ls.filter keepLine
  match raw with
  | [] => .error .emptyMazeIndexError
  | l0 :: _ =>
    if raw.all (fun l => l.length == l0.length) then
      match scanLines raw 0 [] none with
      | .error e => .error e
      | .ok (_, none) => .error .noStartError
      | .ok (g, some s) =>
        .ok { grid := g, grid_corner := (raw.length, l0.length), start_point := s,
              bfs_solution := none, dfs_solution := none }
    else .error .inconsistentRowLength

/-- Outcome of a search loop.  `found` and `notFound` are the two results
of the Python methods, `indexError` is the `IndexError` escaping the DFS
backtracking loop, and `outOfFuel` is the embedding's fuel marker. -/
inductive SearchOut where
  | found : List Point → SearchOut
  | notFound : SearchOut
  | indexError : SearchOut
  | outOfFuel : SearchOut
deriving Repr, DecidableEq

/-- The shared neighbour scan of both searches: walk the neighbour list in
order, skip points off the grid, walls and points already in the route,
stop at the first `END` neighbour (`.error nb` models the early return),
otherwise collect the surviving neighbours in order. -/
def validNeighbours (g : Grid) (route : List Point) :
    List Point → Except Point (List Point)
  | [] => .ok []
  | nb :: rest =>
    match gridFind g nb with
    | none => validNeighbours g route rest
    | some CellType.WALL => validNeighbours g route rest
    | some CellType.END => .error nb
    | some _ =>
      if nb ∈ route then validNeighbours g route rest
      else (validNeighbours g route rest).map (fun others => nb :: others)

/-- One candidate route of the BFS round: examine the neighbours of its
last point; an `END` neighbour returns `route + [nb]`, the others extend
the route. -/
def bfsExpandRoute (g : Grid) (route : List Point) :
    Except (List Point) (List (List Point)) :=
  match route.getLast? with
  | none => .ok []
  | some last =>
    match validNeighbours g route (pointNeighbours last) with
    | .error nb => .error (route ++ [nb])
    | .ok nbs => .ok (nbs.map (fun nb => route ++ [nb]))

/-- One round of `breadth_first_search`: expand every route in order into
`new_routes`, or return the first solution found. -/
def bfsRound (g : Grid) : List (List Point) → Except (List Point) (List (List Point))
  | [] => .ok []
  | route :: rest =>
    match bfsExpandRoute g route with
    | .error sol => .error sol
    | .ok exts =>
      match bfsRound g rest with
      | .error sol => .error sol
      | .ok more => .ok (exts ++ more)

/-- The `while len(routes) > 0` loop of `breadth_first_search`. -/
def bfsLoop (g : Grid) : Nat → List (List Point) → SearchOut
  | 0, _ => .outOfFuel
  | fuel + 1, routes =>
    if routes.isEmpty then .notFound
    else
      match bfsRound g routes with
      | .error sol => .found sol
      | .ok newRoutes => bfsLoop g fuel newRoutes

/-- `breadth_first_search` as a function of the maze state: start from the
single route `[start_point]`.  The fuel `grid.length + 1` is proved
sufficient where needed. -/
def Maze.bfsRun (m : Maze) : SearchOut :=
  bfsLoop m.grid (m.grid.length + 1) [[m.start_point]]

/-- The DFS backtracking loop `while len(possible_steps[-1]) == 0`.
The route and the frame stack are stored head-on-top (reversed Python
lists), so popping from the end of the Python list is taking the tail.
`none` models the `IndexError` raised by `possible_steps[-1]` once the
stack has been emptied; inside each frame the Python order is kept, so
`pop()` takes the frame's last element. -/
def dfsBacktrack : List Point → List (List Point) →
    Option (List Point × List (List Point))
  | _, [] => none
  | _ :: rrest, [] :: frest => dfsBacktrack rrest frest
  | _ :: rrest, (f :: fs) :: frest =>
    some ((f :: fs).getLast (List.cons_ne_nil f fs) :: rrest,
      (f :: fs).dropLast :: frest)
  | [], _ :: _ => none

/-- The `while len(route) > 0` loop of `depth_first_search`.  `routeRev`
and `framesRev` are the Python `route` and `possible_steps` with the top
of each stack at the head; a found solution is returned in Python order. -/
def dfsLoop (g : Grid) : Nat → List Point → List (List Point) → SearchOut
  | 0, _, _ => .outOfFuel
  | fuel + 1, routeRev, framesRev =>
    match routeRev with
    | [] => .notFound
    | cur :: _ =>
      match validNeighbours g routeRev (pointNeighbours cur) with
      | .error nb => .found (routeRev.reverse ++ [nb])
      | .ok [] =>
        if framesRev.isEmpty then .notFound
        else
          match dfsBacktrack routeRev framesRev with
          | none => .indexError
          | some (r', f') => dfsLoop g fuel r' f'
      | .ok (n :: ns) =>
        dfsLoop g fuel ((n :: ns).getLast (List.cons_ne_nil n ns) :: routeRev)
          ((n :: ns).dropLast :: framesRev)

/-- `depth_first_search` as a function of the maze state: route `[start]`,
empty frame stack.  The fuel is a generous embedding bound. -/
def Maze.dfsRun (m : Maze) : SearchOut :=
  dfsLoop m.grid (4 ^ (m.grid.length + 1)) [m.start_point] []

/-- The method `breadth_first_search` including its effect on the maze:
on success it stores the solution in `bfs_solution` and returns it; on
any other outcome the state is unchanged and no path is returned. -/
def Maze.breadth_first_search (m : Maze) : Maze × Option (List Point) :=
  match m.bfsRun with
  | .found p => ({ m with bfs_solution := some p }, some p)
  | _ => (m, none)

/-- The method `depth_first_search` including its effect on the maze. -/
def Maze.depth_first_search (m : Maze) : Maze × Option (List Point) :=
  match m.dfsRun with
  | .found p => ({ m with dfs_solution := some p }, some p)
  | _ => (m, none)

/-- The inner loop of `__str__` over the columns `c, c+1, ...` (`n` more
columns to go): one character per cell; `none` models the `KeyError` on a
missing grid key. -/
def Maze.strRowFrom (m : Maze) (r : Int) : Int → Nat → Option (List Char)
  | _, 0 => some []
  | c, n + 1 =>
    match gridFind m.grid (r, c) with
    | none => none
    | some k => (Maze.strRowFrom m r (c + 1) n).map (fun rest => k.value :: rest)

/-- The outer loop of `__str__` over the rows. -/
def Maze.strRowsFrom (m : Maze) : Int → Nat → Option (List (List Char))
  | _, 0 => some []
  | r, n + 1 =>
    match m.strRowFrom r 0 m.grid_corner.2 with
    | none => none
    | some row =>
      match m.strRowsFrom (r + 1) n with
      | none => none
      | some rest => some (row :: rest)

/-- The rows of the base rendering of the grid. -/
def Maze.strRows (m : Maze) : Option (List (List Char)) :=
  m.strRowsFrom 0 m.grid_corner.1

/-- `Maze.__str__`: the base rendering, each row followed by a newline. -/
def Maze.str (m : Maze) : Option (List Char) :=
  (m.strRows).map (fun rs => (rs.map (fun row => row ++ ['\n'])).flatten)

/-- The inner loop of `view_bfs`/`view_dfs`: like `strRowFrom` but a
position on the solution path is printed as `'*'` (the membership test
comes before the grid lookup, as in the source). -/
def Maze.viewRowFrom (m : Maze) (sol : List Point) (r : Int) :
    Int → Nat → Option (List Char)
  | _, 0 => some []
  | c, n + 1 =>
    if (r, c) ∈ sol then
      (m.viewRowFrom sol r (c + 1) n).map (fun rest => '*' :: rest)
    else
      match gridFind m.grid (r, c) with
      | none => none
      | some k => (m.viewRowFrom sol r (c + 1) n).map (fun rest => k.value :: rest)

/-- The outer loop of `view_bfs`/`view_dfs` over the rows. -/
def Maze.viewRowsFrom (m : Maze) (sol : List Point) : Int → Nat → Option (List (List Char))
  | _, 0 => some []
  | r, n + 1 =>
    match m.viewRowFrom sol r 0 m.grid_corner.2 with
    | none => none
    | some row =>
      match m.viewRowsFrom sol (r + 1) n with
      | none => none
      | some rest => some (row :: rest)

/-- The overlay rendering shared by `view_bfs` and `view_dfs`. -/
def Maze.viewBlock (m : Maze) (sol : List Point) : Option (List Char) :=
  (m.viewRowsFrom sol 0 m.grid_corner.1).map
    (fun rs => (rs.map (fun row => row ++ ['\n'])).flatten)

/-- The guard `if self.bfs_solution is None` of `view_bfs`: true exactly
when the rendering would invoke the search. -/
def Maze.viewBfsInvokesSearch (m : Maze) : Bool := m.bfs_solution.isNone

/-- The guard `if self.dfs_solution is None` of `view_dfs`. -/
def Maze.viewDfsInvokesSearch (m : Maze) : Bool := m.dfs_solution.isNone

/-- `Maze.view_bfs`: run the search if no solution is cached, then render.
An output of `none` models the exception the source raises when the
rendering runs with no solution (`in None`) or on a missing grid key. -/
def Maze.view_bfs (m : Maze) : Maze × Option (List Char) :=
  let m1 := if m.viewBfsInvokesSearch then (m.breadth_first_search).1 else m
  match m1.bfs_solution with
  | none => (m1, none)
  | some sol => (m1, m1.viewBlock sol)

/-- `Maze.view_dfs`: the DFS counterpart of `view_bfs`. -/
def Maze.view_dfs (m : Maze) : Maze × Option (List Char) :=
  let m1 := if m.viewDfsInvokesSearch then (m.depth_first_search).1 else m
  match m1.dfs_solution with
  | none => (m1, none)
  | some sol => (m1, m1.viewBlock sol)

/-! ### Specification-side notions -/

/-- Manhattan distance between two positions. -/
def manhattanDist (p q : Point) : Nat := (p.1 - q.1).natAbs + (p.2 - q.2).natAbs

/-- The position is on the grid and is not a wall. -/
def TraversableCell (g : Grid) (p : Point) : Prop :=
  (gridFind g p).isSome ∧ gridFind g p ≠ some CellType.WALL

/-- The position is on the grid and is neither a wall nor an end cell. -/
def FreeCell (g : Grid) (p : Point) : Prop :=
  (gridFind g p).isSome ∧ gridFind g p ≠ some CellType.WALL ∧
    gridFind g p ≠ some CellType.END

/-- A valid path of the data model: starts at the start position, ends at
a position of kind `END`, consecutive positions at Manhattan distance 1,
no repeated position, and every position on the grid off the walls. -/
def IsValidPath (g : Grid) (s : Point) (path : List Point) : Prop :=
  path.head? = some s ∧
  (∃ e, path.getLast? = some e ∧ gridFind g e = some CellType.END) ∧
  List.Chain' (fun p q => manhattanDist p q = 1) path ∧
  path.Nodup ∧ ∀ p ∈ path, TraversableCell g p

/-- A candidate route of either search: starts at `s`, consecutive steps
are neighbours in the source order, no repeats, and every cell is on the
grid, not a wall and not an end cell. -/
def CandRoute (g : Grid) (s : Point) (r : List Point) : Prop :=
  r.head? = some s ∧ List.Chain' (fun p q => q ∈ pointNeighbours p) r ∧
  r.Nodup ∧ ∀ p ∈ r, FreeCell g p

/-- The last point of the route has a neighbour of kind `END`. -/
def EndNb (g : Grid) (route : List Point) : Prop :=
  ∃ last, route.getLast? = some last ∧
    ∃ nb ∈ pointNeighbours last, gridFind g nb = some CellType.END

/-- Invariant of the DFS frame stack (stored head-on-top together with
the reversed route): each frame holds valid unvisited sibling neighbours
of the route position it belongs to, and there is one frame per route
position beyond the first. -/
def FramesOK (g : Grid) : List Point → List (List Point) → Prop
  | [_], [] => True
  | _ :: prev :: rest, frame :: frest =>
    (∀ f ∈ frame, f ∈ pointNeighbours prev ∧ FreeCell g f ∧ f ∉ prev :: rest) ∧
    FramesOK g (prev :: rest) frest
  | _, _ => False

/-- The structural fact about a constructed maze the search proofs need:
the start position is on the grid with kind `START`. -/
def WellFormedMaze (m : Maze) : Prop :=
  gridFind m.grid m.start_point = some CellType.START

/-- The prefix of a position list up to and including its first `END`
cell (the whole list when it has none). -/
def takeToEnd (g : Grid) : List Point → List Point
  | [] => []
  | p :: rest =>
    if gridFind g p = some CellType.END then [p] else p :: takeToEnd g rest

/-- Modelled from the spec's words for the renderer: the row of the base
rendering with every position that appears in the path replaced by the
marker character, all other positions keeping their character.  `c` is
the column of the first character. -/
def overlayRowFrom (sol : List Point) (r : Int) : Int → List Char → List Char
  | _, [] => []
  | c, ch :: rest =>
    (if (r, c) ∈ sol then '*' else ch) :: overlayRowFrom sol r (c + 1) rest

/-- Modelled from the spec's words for the renderer: the overlay applied
to every row, `r` being the row index of the first row. -/
def overlayRowsFrom (sol : List Point) : Int → List (List Char) → List (List Char)
  | _, [] => []
  | r, row :: rest => overlayRowFrom sol r 0 row :: overlayRowsFrom sol (r + 1) rest

/-- The kind of a character known to be valid. -/
def ctD (ch : Char) : CellType := (charsToCt ch).getD CellType.FREE

/-- The grid cells one line contributes, in insertion order; `j` is the
column of the first character. -/
def lineCells (i : Int) : List Char → Int → Grid
  | [], _ => []
  | ch :: rest, j => ((i, j), ctD ch) :: lineCells i rest (j + 1)

/-- The grid cells of all lines, in insertion order; `i` is the row of
the first line. -/
def gridCells : List (List Char) → Int → Grid
  | [], _ => []
  | l :: rest, i => lineCells i l 0 ++ gridCells rest (i + 1)

/-- The positions of the `'S'` characters of one line, left to right. -/
def sPositionsLine (i : Int) : List Char → Int → List Point
  | [], _ => []
  | ch :: rest, j =>
    if ch = 'S' then (i, j) :: sPositionsLine i rest (j + 1)
    else sPositionsLine i rest (j + 1)

/-- The positions of the `'S'` characters of the kept rows, row-major. -/
def sPositions : List (List Char) → Int → List Point
  | [], _ => []
  | l :: rest, i => sPositionsLine i l 0 ++ sPositions rest (i + 1)

/-- Every character of every kept row is in the recognized set. -/
def AllCharsValid (ls : List (List Char)) : Prop :=
  ∀ l ∈ ls, ∀ ch ∈ l, (charsToCt ch).isSome

/-- The maze `__init__` produces from the kept rows `raw` when
construction succeeds with start position `s`. -/
def mazeOfRows (raw : List (List Char)) (s : Point) : Maze :=
  { grid := gridCells raw 0,
    grid_corner := (raw.length, (raw.headD []).length), start_point := s,
    bfs_solution := none, dfs_solution := none }

/-- Whether a construction outcome is the `MultipleStartError` exception. -/
def failsWithMultipleStart : Except MazeError Maze → Bool
  | .error (.multipleStartError _) => true
  | _ => false

/-! ### Concrete mazes used by the witnesses and counterexamples -/

/-- The 3x3 maze of the spec's concrete scenario: `"S  "`, `" # "`,
`"  E"`. -/
def exLines : List (List Char) :=
  [['S', ' ', ' '], [' ', '#', ' '], [' ', ' ', 'E']]

/-- The maze `Maze.__init__` builds from `exLines`. -/
def exMaze : Maze :=
  { grid := [((0, 0), CellType.START), ((0, 1), CellType.FREE), ((0, 2), CellType.FREE),
      ((1, 0), CellType.FREE), ((1, 1), CellType.WALL), ((1, 2), CellType.FREE),
      ((2, 0), CellType.FREE), ((2, 1), CellType.FREE), ((2, 2), CellType.END)],
    grid_corner := (3, 3), start_point := (0, 0),
    bfs_solution := none, dfs_solution := none }

/-- The path `breadth_first_search` returns on `exMaze`. -/
def exBfsPath : List Point := [(0, 0), (1, 0), (2, 0), (2, 1), (2, 2)]

/-- The path `depth_first_search` returns on `exMaze`. -/
def exDfsPath : List Point := [(0, 0), (0, 1), (0, 2), (1, 2), (2, 2)]

/-- `exMaze` after both searches have run and cached their solutions. -/
def exMazeBoth : Maze :=
  ((exMaze.breadth_first_search).1.depth_first_search).1

/-- A 2x2 maze `"S "`, `"##"` with no `END` cell: the free cell next to
the start is a dead end, so the DFS backtracking loop empties its stack. -/
def crashLines : List (List Char) := [['S', ' '], ['#', '#']]

/-- The maze built from `crashLines`. -/
def crashMaze : Maze :=
  { grid := [((0, 0), CellType.START), ((0, 1), CellType.FREE),
      ((1, 0), CellType.WALL), ((1, 1), CellType.WALL)],
    grid_corner := (2, 2), start_point := (0, 0),
    bfs_solution := none, dfs_solution := none }

/-- A 3x1 maze `"S"`, `" "`, `"#"`, again with no reachable `END`. -/
def crash2Lines : List (List Char) := [['S'], [' '], ['#']]

/-- The maze built from `crash2Lines`. -/
def crash2Maze : Maze :=
  { grid := [((0, 0), CellType.START), ((1, 0), CellType.FREE), ((2, 0), CellType.WALL)],
    grid_corner := (3, 1), start_point := (0, 0),
    bfs_solution := none, dfs_solution := none }

/-- The outcome of the `__init__` scanning loops as a function of the
grid built so far, the cells still to be inserted, the start position
found so far and the positions of the remaining `'S'` characters: used
to characterize `scanLine` and `scanLines` on valid characters. -/
def scanOutcome (base : Grid) (cells : Grid) (st : Option Point) (occ : List Point) :
    Except MazeError (Grid × Option Point) :=
  match st, occ with
  | none, [] => .ok (base ++ cells, none)
  | none, [p1] => .ok (base ++ cells, some p1)
  | none, _ :: p2 :: _ => .error (.multipleStartError p2)
  | some p, [] => .ok (base ++ cells, some p)
  | some _, p1 :: _ => .error (.multipleStartError p1)

/-! ### Helper lemmas -/

theorem bfs_state_fields (m : Maze) :
    (m.breadth_first_search).1.grid = m.grid ∧
    (m.breadth_first_search).1.grid_corner = m.grid_corner ∧
    (m.breadth_first_search).1.start_point = m.start_point ∧
    (m.breadth_first_search).1.dfs_solution = m.dfs_solution := by
  unfold Maze.breadth_first_search
  cases m.bfsRun <;> simp

theorem dfs_state_fields (m : Maze) :
    (m.depth_first_search).1.grid = m.grid ∧
    (m.depth_first_search).1.grid_corner = m.grid_corner ∧
    (m.depth_first_search).1.start_point = m.start_point ∧
    (m.depth_first_search).1.bfs_solution = m.bfs_solution := by
  unfold Maze.depth_first_search
  cases m.dfsRun <;> simp

theorem view_bfs_state (m : Maze) :
    (m.view_bfs).1 = if m.viewBfsInvokesSearch then (m.breadth_first_search).1 else m := by
  by_cases hg : m.viewBfsInvokesSearch = true
  · cases h : (m.breadth_first_search).1.bfs_solution <;>
      simp [Maze.view_bfs, hg, h]
  · simp only [Bool.not_eq_true] at hg
    cases h : m.bfs_solution <;> simp [Maze.view_bfs, hg, h]

theorem view_dfs_state (m : Maze) :
    (m.view_dfs).1 = if m.viewDfsInvokesSearch then (m.depth_first_search).1 else m := by
  by_cases hg : m.viewDfsInvokesSearch = true
  · cases h : (m.depth_first_search).1.dfs_solution <;>
      simp [Maze.view_dfs, hg, h]
  · simp only [Bool.not_eq_true] at hg
    cases h : m.dfs_solution <;> simp [Maze.view_dfs, hg, h]

/-! ### C9: the frame of the four operations -/

/-- C9: neither search nor either rendering changes the grid, the grid
dimensions or the start point, and each operation leaves the other
algorithm's cached solution untouched. -/
theorem C9_operations_frame (m : Maze) :
    ((m.breadth_first_search).1.grid = m.grid ∧
      (m.breadth_first_search).1.grid_corner = m.grid_corner ∧
      (m.breadth_first_search).1.start_point = m.start_point ∧
      (m.breadth_first_search).1.dfs_solution = m.dfs_solution) ∧
    ((m.depth_first_search).1.grid = m.grid ∧
      (m.depth_first_search).1.grid_corner = m.grid_corner ∧
      (m.depth_first_search).1.start_point = m.start_point ∧
      (m.depth_first_search).1.bfs_solution = m.bfs_solution) ∧
    ((m.view_bfs).1.grid = m.grid ∧
      (m.view_bfs).1.grid_corner = m.grid_corner ∧
      (m.view_bfs).1.start_point = m.start_point ∧
      (m.view_bfs).1.dfs_solution = m.dfs_solution) ∧
    ((m.view_dfs).1.grid = m.grid ∧
      (m.view_dfs).1.grid_corner = m.grid_corner ∧
      (m.view_dfs).1.start_point = m.start_point ∧
      (m.view_dfs).1.bfs_solution = m.bfs_solution) := by
  refine ⟨bfs_state_fields m, dfs_state_fields m, ?_, ?_⟩
  · rw [view_bfs_state m]
    by_cases h : m.viewBfsInvokesSearch = true
    · simp only [h, if_pos]
      exact bfs_state_fields m
    · simp only [Bool.not_eq_true] at h
      simp [h]
  · rw [view_dfs_state m]
    by_cases h : m.viewDfsInvokesSearch = true
    · simp only [h, if_pos]
      exact dfs_state_fields m
    · simp only [Bool.not_eq_true] at h
      simp [h]

theorem view_bfs_cached (m : Maze) (p : List Point) (hb : m.bfs_solution = some p) :
    m.view_bfs = (m, m.viewBlock p) := by
  have hgb : m.viewBfsInvokesSearch = false := by
    simp [Maze.viewBfsInvokesSearch, hb]
  unfold Maze.view_bfs
  simp only [hgb, if_neg Bool.false_ne_true, hb]

theorem view_dfs_cached (m : Maze) (q : List Point) (hd : m.dfs_solution = some q) :
    m.view_dfs = (m, m.viewBlock q) := by
  have hgd : m.viewDfsInvokesSearch = false := by
    simp [Maze.viewDfsInvokesSearch, hd]
  unfold Maze.view_dfs
  simp only [hgd, if_neg Bool.false_ne_true, hd]

/-! ### C5: memoization of the cached solutions -/

/-- C5: once a solution is cached the rendering guard is false (the
search is not invoked again), the maze state is unchanged, the output is
the pure rendering of the cached path, and a second rendering call
returns the identical output. -/
theorem C5_memoized_views (m : Maze) (p q : List Point)
    (hb : m.bfs_solution = some p) (hd : m.dfs_solution = some q) :
    m.viewBfsInvokesSearch = false ∧ m.viewDfsInvokesSearch = false ∧
    m.view_bfs = (m, m.viewBlock p) ∧ m.view_dfs = (m, m.viewBlock q) ∧
    (m.view_bfs).1.view_bfs = m.view_bfs ∧ (m.view_dfs).1.view_dfs = m.view_dfs := by
  have hgb : m.viewBfsInvokesSearch = false := by
    simp [Maze.viewBfsInvokesSearch, hb]
  have hgd : m.viewDfsInvokesSearch = false := by
    simp [Maze.viewDfsInvokesSearch, hd]
  have hvb : m.view_bfs = (m, m.viewBlock p) := view_bfs_cached m p hb
  have hvd : m.view_dfs = (m, m.viewBlock q) := view_dfs_cached m q hd
  refine ⟨hgb, hgd, hvb, hvd, ?_, ?_⟩
  · rw [hvb]
    exact hvb
  · rw [hvd]
    exact hvd

/-- Witness for C5 at the 3x3 example maze with both solutions cached. -/
theorem C5_memoized_views_witness :
    exMazeBoth.viewBfsInvokesSearch = false ∧ exMazeBoth.viewDfsInvokesSearch = false ∧
    exMazeBoth.view_bfs = (exMazeBoth, exMazeBoth.viewBlock exBfsPath) ∧
    exMazeBoth.view_dfs = (exMazeBoth, exMazeBoth.viewBlock exDfsPath) ∧
    (exMazeBoth.view_bfs).1.view_bfs = exMazeBoth.view_bfs ∧
    (exMazeBoth.view_dfs).1.view_dfs = exMazeBoth.view_dfs :=
  C5_memoized_views exMazeBoth exBfsPath exDfsPath rfl rfl

/-! ### C3 and C4: the DFS backtracking crash -/

/-- C3: on the 2x2 maze `"S "`, `"##"`, which has no `END` cell at all,
`breadth_first_search` reports no solution as claimed, but
`depth_first_search` ends in the `IndexError` of `possible_steps[-1]`
instead of reporting that no path exists. -/
theorem C3_dfs_raises_instead_of_notFound :
    Maze.initLines crashLines = .ok crashMaze ∧
    crashMaze.bfsRun = SearchOut.notFound ∧
    crashMaze.dfsRun = SearchOut.indexError := by
  refine ⟨rfl, rfl, ?_⟩
  decide

/-- C4: on the 3x1 maze `"S"`, `" "`, `"#"` the DFS terminates neither by
returning a path nor by reporting that no path exists: it raises the
backtracking `IndexError`. -/
theorem C4_dfs_terminates_by_exception :
    Maze.initLines crash2Lines = .ok crash2Maze ∧
    crash2Maze.dfsRun = SearchOut.indexError ∧
    crash2Maze.bfsRun = SearchOut.notFound := by
  refine ⟨rfl, ?_, rfl⟩
  decide

/-! ### C10: empty lines are discarded like comments -/

theorem scanLine_error_shape (i : Int) (line : List Char) :
    ∀ (j : Int) (g : Grid) (st : Option Point) (e : MazeError),
      scanLine i line j g st = .error e →
      e ≠ .inconsistentRowLength ∧ e ≠ .emptyMazeIndexError ∧ e ≠ .noStartError := by
  induction line with
  | nil =>
    intro j g st e h
    simp [scanLine] at h
  | cons ch rest ih =>
    intro j g st e h
    rw [scanLine] at h
    cases hc : charsToCt ch with
    | none =>
      rw [hc] at h
      simp only [Except.error.injEq] at h
      exact h ▸ ⟨by simp, by simp, by simp⟩
    | some ct =>
      rw [hc] at h
      simp only at h
      by_cases hst : ct = CellType.START
      · rw [if_pos hst] at h
        cases st with
        | some p =>
          simp only [Except.error.injEq] at h
          exact h ▸ ⟨by simp, by simp, by simp⟩
        | none => exact ih _ _ _ _ h
      · rw [if_neg hst] at h
        exact ih _ _ _ _ h

theorem scanLines_error_shape (ls : List (List Char)) :
    ∀ (i : Int) (g : Grid) (st : Option Point) (e : MazeError),
      scanLines ls i g st = .error e →
      e ≠ .inconsistentRowLength ∧ e ≠ .emptyMazeIndexError ∧ e ≠ .noStartError := by
  induction ls with
  | nil =>
    intro i g st e h
    simp [scanLines] at h
  | cons l rest ih =>
    intro i g st e h
    rw [scanLines] at h
    cases hl : scanLine i l 0 g st with
    | error e1 =>
      rw [hl] at h
      simp only [Except.error.injEq] at h
      exact h ▸ scanLine_error_shape i l 0 g st e1 hl
    | ok p =>
      rw [hl] at h
      exact ih _ _ _ _ h

/-- C10: during construction an empty input line is discarded exactly
like a comment line — the construction outcome on any line list equals
the outcome on the list with its empty lines removed — and when the
kept (non-empty, non-comment) rows all have equal length the row-length
validation cannot be the failure. -/
theorem C10_empty_lines_discarded (ls : List (List Char)) :
    Maze.initLines ls = Maze.initLines (ls.filter (fun l => l.length != 0)) ∧
    (∀ l0 rest, ls.filter keepLine = l0 :: rest →
      (∀ l ∈ ls.filter keepLine, l.length = l0.length) →
      Maze.initLines ls ≠ .error .inconsistentRowLength) := by
  constructor
  · have hfilter : (ls.filter (fun l => l.length != 0)).filter keepLine
        = ls.filter keepLine := by
      rw [List.filter_filter]
      apply List.filter_congr
      intro l _
      cases hl : (l.length != 0) <;> simp [keepLine, hl]
    simp only [Maze.initLines, hfilter]
  · intro l0 rest hraw hlen
    simp only [Maze.initLines, hraw]
    have hall : (l0 :: rest).all (fun l => l.length == l0.length) = true := by
      rw [← hraw]
      simp only [List.all_eq_true, beq_iff_eq]
      exact hlen
    rw [if_pos hall]
    cases hs : scanLines (l0 :: rest) 0 [] none with
    | error e =>
      intro hcontra
      simp only [Except.error.injEq] at hcontra
      exact (scanLines_error_shape _ _ _ _ _ hs).1 hcontra
    | ok p =>
      rcases p with ⟨g, st⟩
      cases st <;> simp

/-- Witness for C10: a trailing empty line (a final newline) does not
change the constructed maze, and the example maze's text with interior
empty lines still passes the row-length validation. -/
theorem C10_empty_lines_discarded_witness :
    Maze.initLines (exLines ++ [[]]) = Maze.initLines exLines ∧
    Maze.initLines [['S'], [], [' ']] ≠ .error .inconsistentRowLength := by
  constructor
  · have h := (C10_empty_lines_discarded (exLines ++ [[]])).1
    rw [h]
    rfl
  · exact (C10_empty_lines_discarded [['S'], [], [' ']]).2 ['S'] [[' ']] rfl
      (by decide)

/-! ### C6: the path overlay rendering -/

theorem viewRowFrom_overlay (m : Maze) (sol : List Point) (r : Int) :
    ∀ (n : Nat) (c : Int) (row : List Char),
      m.strRowFrom r c n = some row →
      m.viewRowFrom sol r c n = some (overlayRowFrom sol r c row) := by
  intro n
  induction n with
  | zero =>
    intro c row h
    rw [Maze.strRowFrom] at h
    simp only [Option.some.injEq] at h
    subst h
    rfl
  | succ k ih =>
    intro c row h
    rw [Maze.strRowFrom] at h
    cases hg : gridFind m.grid (r, c) with
    | none =>
      rw [hg] at h
      exact absurd h (by simp)
    | some kc =>
      rw [hg] at h
      simp only [Option.map_eq_some'] at h
      obtain ⟨rest, hrest, hrow⟩ := h
      subst hrow
      rw [Maze.viewRowFrom]
      by_cases hin : (r, c) ∈ sol
      · rw [if_pos hin, ih _ _ hrest]
        simp [overlayRowFrom, hin]
      · rw [if_neg hin, hg, ih _ _ hrest]
        simp [overlayRowFrom, hin]

theorem viewRowsFrom_overlay (m : Maze) (sol : List Point) :
    ∀ (n : Nat) (r : Int) (rows : List (List Char)),
      m.strRowsFrom r n = some rows →
      m.viewRowsFrom sol r n = some (overlayRowsFrom sol r rows) := by
  intro n
  induction n with
  | zero =>
    intro r rows h
    rw [Maze.strRowsFrom] at h
    simp only [Option.some.injEq] at h
    subst h
    rfl
  | succ k ih =>
    intro r rows h
    rw [Maze.strRowsFrom] at h
    cases hrow : m.strRowFrom r 0 m.grid_corner.2 with
    | none =>
      rw [hrow] at h
      exact absurd h (by simp)
    | some row =>
      rw [hrow] at h
      cases hrest : m.strRowsFrom (r + 1) k with
      | none =>
        rw [hrest] at h
        exact absurd h (by simp)
      | some rest =>
        rw [hrest] at h
        simp only [Option.some.injEq] at h
        subst h
        rw [Maze.viewRowsFrom, viewRowFrom_overlay m sol r _ _ _ hrow,
          ih _ _ hrest]
        rfl

/-- C6: with a computed solution cached, `view_bfs` (respectively
`view_dfs`) outputs exactly the base rendering of the grid with every
position occurring in the path replaced by the marker `'*'` — including
`START` and `END` positions on the path — and every other position keeps
its kind's canonical character. -/
theorem C6_views_are_star_overlays (m : Maze) (p q : List Point)
    (rows : List (List Char)) (hb : m.bfs_solution = some p)
    (hd : m.dfs_solution = some q) (hrows : m.strRows = some rows) :
    (m.view_bfs).2
      = some (((overlayRowsFrom p 0 rows).map (fun row => row ++ ['\n'])).flatten) ∧
    (m.view_dfs).2
      = some (((overlayRowsFrom q 0 rows).map (fun row => row ++ ['\n'])).flatten) := by
  have hvb := view_bfs_cached m p hb
  have hvd := view_dfs_cached m q hd
  rw [Maze.strRows] at hrows
  constructor
  · rw [hvb]
    show m.viewBlock p = _
    rw [Maze.viewBlock, viewRowsFrom_overlay m p _ _ _ hrows]
    rfl
  · rw [hvd]
    show m.viewBlock q = _
    rw [Maze.viewBlock, viewRowsFrom_overlay m q _ _ _ hrows]
    rfl

/-- Witness for C6 at the example maze with both solutions computed. -/
theorem C6_views_are_star_overlays_witness :
    (exMazeBoth.view_bfs).2
      = some (((overlayRowsFrom exBfsPath 0 exLines).map (fun row => row ++ ['\n'])).flatten) ∧
    (exMazeBoth.view_dfs).2
      = some (((overlayRowsFrom exDfsPath 0 exLines).map (fun row => row ++ ['\n'])).flatten) :=
  C6_views_are_star_overlays exMazeBoth exBfsPath exDfsPath exLines rfl rfl rfl

/-! ### Lemmas about the character table and grid lookups -/

theorem charsToCt_start_iff (ch : Char) :
    charsToCt ch = some CellType.START ↔ ch = 'S' := by
  unfold charsToCt
  split_ifs with h1 h2 h3 h4 <;> simp_all

theorem ctD_eq (ch : Char) (ct : CellType) (h : charsToCt ch = some ct) :
    ctD ch = ct := by
  rw [ctD, h]
  rfl

theorem ctD_value (ch : Char) (h : (charsToCt ch).isSome) :
    (ctD ch).value = ch := by
  revert h
  unfold charsToCt
  split_ifs with h1 h2 h3 h4 <;> intro h <;> simp_all [ctD, charsToCt, CellType.value]

theorem gridFind_append_left (g1 g2 : Grid) (p : Point) (k : CellType)
    (h : gridFind g1 p = some k) : gridFind (g1 ++ g2) p = some k := by
  induction g1 with
  | nil => simp [gridFind] at h
  | cons e rest ih =>
    rcases e with ⟨q, kq⟩
    rw [gridFind] at h
    rw [List.cons_append, gridFind]
    by_cases hpq : p = q
    · rwa [if_pos hpq] at h ⊢
    · rw [if_neg hpq] at h ⊢
      exact ih h

theorem gridFind_append_right (g1 g2 : Grid) (p : Point)
    (h : gridFind g1 p = none) : gridFind (g1 ++ g2) p = gridFind g2 p := by
  induction g1 with
  | nil => rfl
  | cons e rest ih =>
    rcases e with ⟨q, kq⟩
    rw [gridFind] at h
    rw [List.cons_append, gridFind]
    by_cases hpq : p = q
    · rw [if_pos hpq] at h
      exact absurd h (by simp)
    · rw [if_neg hpq] at h ⊢
      exact ih h

theorem lineCells_find_ne_row (i : Int) (line : List Char) :
    ∀ (j : Int) (r c : Int), r ≠ i → gridFind (lineCells i line j) (r, c) = none := by
  induction line with
  | nil => intro j r c _; rfl
  | cons ch rest ih =>
    intro j r c hr
    rw [lineCells, gridFind, if_neg (by simp [hr])]
    exact ih (j + 1) r c hr

theorem lineCells_find_lt_col (i : Int) (line : List Char) :
    ∀ (j : Int) (c : Int), c < j → gridFind (lineCells i line j) (i, c) = none := by
  induction line with
  | nil => intro j c _; rfl
  | cons ch rest ih =>
    intro j c hc
    rw [lineCells, gridFind, if_neg (by simp; omega)]
    exact ih (j + 1) c (by omega)

theorem lineCells_find (i : Int) (cs : List Char) :
    ∀ (j : Int) (k : Nat) (hk : k < cs.length),
      gridFind (lineCells i cs j) (i, j + (k : Int)) = some (ctD (cs[k])) := by
  induction cs with
  | nil => intro j k hk; exact absurd hk (by simp)
  | cons ch rest ih =>
    intro j k hk
    rw [lineCells, gridFind]
    cases k with
    | zero => rw [if_pos (by simp)]; rfl
    | succ k' =>
      rw [if_neg (by simp; omega)]
      have := ih (j + 1) k' (by simpa using hk)
      rwa [show (j + 1) + (k' : Int) = j + ((k' + 1 : Nat) : Int) by push_cast; ring] at this

theorem gridCells_find (ls : List (List Char)) :
    ∀ (i : Int) (r : Nat) (hr : r < ls.length) (k : Nat) (hk : k < ls[r].length),
      gridFind (gridCells ls i) (i + (r : Int), (k : Int)) = some (ctD (ls[r][k])) := by
  induction ls with
  | nil => intro i r hr; exact absurd hr (by simp)
  | cons l rest ih =>
    intro i r hr k hk
    rw [gridCells]
    cases r with
    | zero =>
      have h0 := lineCells_find i l 0 k (by simpa using hk)
      rw [show (0 : Int) + (k : Int) = (k : Int) by ring] at h0
      have := gridFind_append_left (lineCells i l 0) (gridCells rest (i + 1)) _ _ h0
      simpa using this
    | succ r' =>
      have hne : gridFind (lineCells i l 0) (i + ((r' + 1 : Nat) : Int), (k : Int)) = none := by
        apply lineCells_find_ne_row
        push_cast
        omega
      rw [gridFind_append_right _ _ _ hne]
      have := ih (i + 1) r' (by simpa using hr) k (by simpa using hk)
      rwa [show (i + 1) + (r' : Int) = i + ((r' + 1 : Nat) : Int) by push_cast; ring] at this

/-! ### Characterization of the construction scan -/

theorem scanOutcome_shift (base c1 c2 : Grid) (st : Option Point) (occ : List Point) :
    scanOutcome base (c1 ++ c2) st occ = scanOutcome (base ++ c1) c2 st occ := by
  cases st <;> rcases occ with _ | ⟨a, _ | ⟨b, T⟩⟩ <;>
    simp [scanOutcome, List.append_assoc]

theorem scanOutcome_start_cons (base cells : Grid) (q : Point) (occ : List Point) :
    scanOutcome base cells none (q :: occ) = scanOutcome base cells (some q) occ := by
  rcases occ with _ | ⟨b, T⟩ <;> simp [scanOutcome]

theorem scanLine_run (i : Int) (line : List Char) :
    ∀ (j : Int) (g : Grid) (st : Option Point),
      (∀ ch ∈ line, (charsToCt ch).isSome) →
      scanLine i line j g st
        = scanOutcome g (lineCells i line j) st (sPositionsLine i line j) := by
  induction line with
  | nil =>
    intro j g st _
    cases st <;> simp [scanLine, sPositionsLine, lineCells, scanOutcome]
  | cons ch rest ih =>
    intro j g st hv
    obtain ⟨ct, hc⟩ := Option.isSome_iff_exists.mp (hv ch (by simp))
    have hvrest : ∀ c ∈ rest, (charsToCt c).isSome := fun c hcr => hv c (by simp [hcr])
    have hcell : ctD ch = ct := ctD_eq ch ct hc
    rw [scanLine, hc]
    simp only
    by_cases hS : ch = 'S'
    · have hct : ct = CellType.START := by
        rw [hS] at hc
        have h2 : charsToCt 'S' = some CellType.START := by decide
        rw [h2] at hc
        exact (Option.some.injEq _ _ ▸ hc.symm)
      rw [if_pos hct]
      cases st with
      | some p =>
        simp [sPositionsLine, hS, scanOutcome]
      | none =>
        rw [ih (j + 1) (g ++ [((i, j), ct)]) (some (i, j)) hvrest]
        have hcells : lineCells i (ch :: rest) j
            = ((i, j), ct) :: lineCells i rest (j + 1) := by
          rw [lineCells, hcell]
        rw [show sPositionsLine i (ch :: rest) j
              = (i, j) :: sPositionsLine i rest (j + 1) by rw [sPositionsLine, if_pos hS],
          hcells, scanOutcome_start_cons,
          show (((i, j), ct) :: lineCells i rest (j + 1))
              = [((i, j), ct)] ++ lineCells i rest (j + 1) by rfl,
          scanOutcome_shift]
    · have hct : ct ≠ CellType.START := by
        intro hcontra
        rw [hcontra] at hc
        exact hS ((charsToCt_start_iff ch).mp hc)
      rw [if_neg hct]
      rw [ih (j + 1) (g ++ [((i, j), ct)]) st hvrest]
      have hcells : lineCells i (ch :: rest) j
          = ((i, j), ct) :: lineCells i rest (j + 1) := by
        rw [lineCells, hcell]
      rw [show sPositionsLine i (ch :: rest) j = sPositionsLine i rest (j + 1) by
            rw [sPositionsLine, if_neg hS],
        hcells,
        show (((i, j), ct) :: lineCells i rest (j + 1))
            = [((i, j), ct)] ++ lineCells i rest (j + 1) by rfl,
        scanOutcome_shift]

theorem scanLines_run (ls : List (List Char)) :
    ∀ (i : Int) (g : Grid) (st : Option Point),
      AllCharsValid ls →
      scanLines ls i g st
        = scanOutcome g (gridCells ls i) st (sPositions ls i) := by
  induction ls with
  | nil =>
    intro i g st _
    cases st <;> simp [scanLines, gridCells, sPositions, scanOutcome]
  | cons l rest ih =>
    intro i g st hv
    have hvl : ∀ ch ∈ l, (charsToCt ch).isSome := fun ch hch => hv l (by simp) ch hch
    have hvrest : AllCharsValid rest := fun l' hl' ch hch => hv l' (by simp [hl']) ch hch
    rw [scanLines, scanLine_run i l 0 g st hvl]
    rw [show gridCells (l :: rest) i = lineCells i l 0 ++ gridCells rest (i + 1) from rfl,
      show sPositions (l :: rest) i = sPositionsLine i l 0 ++ sPositions rest (i + 1) from rfl]
    cases st with
    | some p =>
      rcases hocc : sPositionsLine i l 0 with _ | ⟨q, T⟩
      · rw [show scanOutcome g (lineCells i l 0) (some p) [] = .ok (g ++ lineCells i l 0, some p) from rfl]
        simp only
        rw [ih (i + 1) (g ++ lineCells i l 0) (some p) hvrest, List.nil_append,
          scanOutcome_shift]
      · rw [show scanOutcome g (lineCells i l 0) (some p) (q :: T)
              = .error (.multipleStartError q) from rfl]
        simp only [List.cons_append]
        rfl
    | none =>
      rcases hocc : sPositionsLine i l 0 with _ | ⟨q, _ | ⟨b, T⟩⟩
      · rw [show scanOutcome g (lineCells i l 0) none [] = .ok (g ++ lineCells i l 0, none) from rfl]
        simp only
        rw [ih (i + 1) (g ++ lineCells i l 0) none hvrest, List.nil_append,
          scanOutcome_shift]
      · rw [show scanOutcome g (lineCells i l 0) none [q] = .ok (g ++ lineCells i l 0, some q) from rfl]
        simp only
        rw [ih (i + 1) (g ++ lineCells i l 0) (some q) hvrest, List.singleton_append,
          scanOutcome_start_cons, scanOutcome_shift]
      · rw [show scanOutcome g (lineCells i l 0) none (q :: b :: T)
            = .error (.multipleStartError b) from rfl]
        simp only [List.cons_append]
        rfl

theorem scanLine_ok_valid (i : Int) (line : List Char) :
    ∀ (j : Int) (g : Grid) (st : Option Point) (r : Grid × Option Point),
      scanLine i line j g st = .ok r → ∀ ch ∈ line, (charsToCt ch).isSome := by
  induction line with
  | nil => intro j g st r _ ch hch; exact absurd hch (by simp)
  | cons c rest ih =>
    intro j g st r h ch hch
    rw [scanLine] at h
    cases hc : charsToCt c with
    | none =>
      rw [hc] at h
      exact absurd h (by simp)
    | some ct =>
      rw [hc] at h
      simp only at h
      rcases List.mem_cons.mp hch with h1 | h1
      · subst h1
        simp [hc]
      · by_cases hst : ct = CellType.START
        · rw [if_pos hst] at h
          cases st with
          | some p => exact absurd h (by simp)
          | none => exact ih _ _ _ _ h ch h1
        · rw [if_neg hst] at h
          exact ih _ _ _ _ h ch h1

theorem scanLines_ok_valid (ls : List (List Char)) :
    ∀ (i : Int) (g : Grid) (st : Option Point) (r : Grid × Option Point),
      scanLines ls i g st = .ok r → AllCharsValid ls := by
  induction ls with
  | nil => intro i g st r _ l hl; exact absurd hl (by simp)
  | cons l rest ih =>
    intro i g st r h l' hl'
    rw [scanLines] at h
    cases hl : scanLine i l 0 g st with
    | error e => rw [hl] at h; exact absurd h (by simp)
    | ok p =>
      rw [hl] at h
      rcases List.mem_cons.mp hl' with h1 | h1
      · subst h1
        exact scanLine_ok_valid i l' 0 g st p hl
      · exact ih _ _ _ _ h l' h1

theorem initLines_ok_elim (ls : List (List Char)) (m : Maze)
    (h : Maze.initLines ls = .ok m) :
    ∃ l0 rest s, ls.filter keepLine = l0 :: rest ∧
      (∀ l ∈ l0 :: rest, l.length = l0.length) ∧
      AllCharsValid (l0 :: rest) ∧
      sPositions (l0 :: rest) 0 = [s] ∧
      m = { grid := gridCells (l0 :: rest) 0,
            grid_corner := ((l0 :: rest).length, l0.length), start_point := s,
            bfs_solution := none, dfs_solution := none } := by
  rw [Maze.initLines] at h
  rcases hraw : ls.filter keepLine with _ | ⟨l0, rest⟩
  · rw [hraw] at h
    exact absurd h (by simp)
  · rw [hraw] at h
    simp only at h
    by_cases hall : (l0 :: rest).all (fun l => l.length == l0.length) = true
    · rw [if_pos hall] at h
      cases hscan : scanLines (l0 :: rest) 0 [] none with
      | error e =>
        rw [hscan] at h
        exact absurd h (by simp)
      | ok p =>
        rcases p with ⟨g1, st1⟩
        rw [hscan] at h
        have hv : AllCharsValid (l0 :: rest) := scanLines_ok_valid _ _ _ _ _ hscan
        have hcomb : (Except.ok (g1, st1) : Except MazeError (Grid × Option Point))
            = scanOutcome [] (gridCells (l0 :: rest) 0) none (sPositions (l0 :: rest) 0) :=
          hscan.symm.trans (scanLines_run (l0 :: rest) 0 [] none hv)
        rcases hocc : sPositions (l0 :: rest) 0 with _ | ⟨q, _ | ⟨b, T⟩⟩ <;>
          rw [hocc] at hcomb
        · rw [show scanOutcome [] (gridCells (l0 :: rest) 0) none []
                = .ok ([] ++ gridCells (l0 :: rest) 0, none) from rfl] at hcomb
          simp only [Except.ok.injEq, Prod.mk.injEq] at hcomb
          rw [hcomb.2] at h
          exact absurd h (by simp)
        · rw [show scanOutcome [] (gridCells (l0 :: rest) 0) none [q]
                = .ok ([] ++ gridCells (l0 :: rest) 0, some q) from rfl] at hcomb
          simp only [Except.ok.injEq, Prod.mk.injEq, List.nil_append] at hcomb
          rw [hcomb.1, hcomb.2] at h
          simp only [Except.ok.injEq] at h
          exact ⟨l0, rest, q, rfl,
            fun l hl => beq_iff_eq.mp ((List.all_eq_true.mp hall) l hl), hv, hocc, h.symm⟩
        · rw [show scanOutcome [] (gridCells (l0 :: rest) 0) none (q :: b :: T)
                = .error (.multipleStartError b) from rfl] at hcomb
          exact absurd hcomb (by simp)
    · rw [if_neg hall] at h
      exact absurd h (by simp)

theorem initLines_run (ls : List (List Char)) (l0 : List Char) (rest : List (List Char))
    (hraw : ls.filter keepLine = l0 :: rest)
    (hlen : ∀ l ∈ l0 :: rest, l.length = l0.length)
    (hv : AllCharsValid (l0 :: rest)) :
    Maze.initLines ls
      = match sPositions (l0 :: rest) 0 with
        | [] => .error .noStartError
        | [s] => .ok (mazeOfRows (l0 :: rest) s)
        | _ :: p2 :: _ => .error (.multipleStartError p2) := by
  rw [Maze.initLines]
  rw [hraw]
  simp only
  have hall : (l0 :: rest).all (fun l => l.length == l0.length) = true := by
    simp only [List.all_eq_true, beq_iff_eq]
    exact hlen
  rw [if_pos hall, scanLines_run (l0 :: rest) 0 [] none hv]
  rcases hocc : sPositions (l0 :: rest) 0 with _ | ⟨q, _ | ⟨b, T⟩⟩ <;> rfl

theorem sPositionsLine_shape (i : Int) (cs : List Char) :
    ∀ (j : Int) (p : Point), p ∈ sPositionsLine i cs j → p.1 = i ∧ j ≤ p.2 := by
  induction cs with
  | nil => intro j p hp; exact absurd hp (by simp [sPositionsLine])
  | cons ch rest ih =>
    intro j p hp
    rw [sPositionsLine] at hp
    by_cases hS : ch = 'S'
    · rw [if_pos hS] at hp
      rcases List.mem_cons.mp hp with h1 | h1
      · subst h1
        exact ⟨rfl, le_refl _⟩
      · have := ih (j + 1) p h1
        exact ⟨this.1, by omega⟩
    · rw [if_neg hS] at hp
      have := ih (j + 1) p hp
      exact ⟨this.1, by omega⟩

theorem sPositionsLine_find (i : Int) (cs : List Char) :
    ∀ (j : Int) (p : Point), p ∈ sPositionsLine i cs j →
      gridFind (lineCells i cs j) p = some CellType.START := by
  induction cs with
  | nil => intro j p hp; exact absurd hp (by simp [sPositionsLine])
  | cons ch rest ih =>
    intro j p hp
    rw [sPositionsLine] at hp
    rw [lineCells, gridFind]
    by_cases hS : ch = 'S'
    · rw [if_pos hS] at hp
      rcases List.mem_cons.mp hp with h1 | h1
      · subst h1
        rw [if_pos rfl, hS]
        rfl
      · have hsh := sPositionsLine_shape i rest (j + 1) p h1
        rw [if_neg (fun hcontra => by
          have h2 : j + 1 ≤ j := by
            have h3 := hsh.2
            rw [hcontra] at h3
            exact h3
          omega)]
        exact ih (j + 1) p h1
    · rw [if_neg hS] at hp
      have hsh := sPositionsLine_shape i rest (j + 1) p hp
      rw [if_neg (fun hcontra => by
        have h2 : j + 1 ≤ j := by
          have h3 := hsh.2
          rw [hcontra] at h3
          exact h3
        omega)]
      exact ih (j + 1) p hp

theorem sPositions_shape (ls : List (List Char)) :
    ∀ (i : Int) (p : Point), p ∈ sPositions ls i → i ≤ p.1 := by
  induction ls with
  | nil => intro i p hp; exact absurd hp (by simp [sPositions])
  | cons l rest ih =>
    intro i p hp
    rw [sPositions] at hp
    rcases List.mem_append.mp hp with h1 | h1
    · exact le_of_eq (sPositionsLine_shape i l 0 p h1).1.symm
    · have := ih (i + 1) p h1
      omega

theorem sPositions_find (ls : List (List Char)) :
    ∀ (i : Int) (p : Point), p ∈ sPositions ls i →
      gridFind (gridCells ls i) p = some CellType.START := by
  induction ls with
  | nil => intro i p hp; exact absurd hp (by simp [sPositions])
  | cons l rest ih =>
    intro i p hp
    rw [sPositions] at hp
    rw [gridCells]
    rcases List.mem_append.mp hp with h1 | h1
    · exact gridFind_append_left _ _ _ _ (sPositionsLine_find i l 0 p h1)
    · have hrow := sPositions_shape rest (i + 1) p h1
      rw [gridFind_append_right _ _ _ (by
        rw [show p = (p.1, p.2) from rfl]
        exact lineCells_find_ne_row i l 0 p.1 p.2 (by omega))]
      exact ih (i + 1) p h1

theorem initLines_wellFormed (ls : List (List Char)) (m : Maze)
    (h : Maze.initLines ls = .ok m) : WellFormedMaze m := by
  obtain ⟨l0, rest, s, hraw, hlen, hv, hocc, hm⟩ := initLines_ok_elim ls m h
  rw [WellFormedMaze, hm]
  exact sPositions_find (l0 :: rest) 0 s (by rw [hocc]; simp)

/-! ### C7: construction followed by base rendering is the identity -/

theorem strRowFrom_eval (m : Maze) (r : Int) :
    ∀ (cs : List Char) (j : Int),
      (∀ (k : Nat) (hk : k < cs.length),
        gridFind m.grid (r, j + (k : Int)) = some (ctD (cs[k]))) →
      (∀ ch ∈ cs, (charsToCt ch).isSome) →
      m.strRowFrom r j cs.length = some cs := by
  intro cs
  induction cs with
  | nil => intro j _ _; rfl
  | cons ch rest ih =>
    intro j hfind hv
    rw [show (ch :: rest).length = rest.length + 1 from rfl, Maze.strRowFrom]
    have h0 := hfind 0 (by simp)
    rw [show j + ((0 : Nat) : Int) = j by simp] at h0
    simp only [List.getElem_cons_zero] at h0
    rw [h0]
    have hrec := ih (j + 1)
      (fun k hk => by
        have := hfind (k + 1) (by simpa using hk)
        rw [show j + ((k + 1 : Nat) : Int) = (j + 1) + (k : Int) by push_cast; ring] at this
        simp only [List.getElem_cons_succ] at this
        exact this)
      (fun c hc => hv c (by simp [hc]))
    rw [hrec]
    simp [ctD_value ch (hv ch (by simp))]

theorem strRowsFrom_eval (m : Maze) :
    ∀ (rows : List (List Char)) (r : Int),
      (∀ (a : Nat) (ha : a < rows.length),
        m.strRowFrom (r + (a : Int)) 0 m.grid_corner.2 = some (rows[a])) →
      m.strRowsFrom r rows.length = some rows := by
  intro rows
  induction rows with
  | nil => intro r _; rfl
  | cons row rrest ih =>
    intro r hrow
    rw [show (row :: rrest).length = rrest.length + 1 from rfl, Maze.strRowsFrom]
    have h0 := hrow 0 (by simp)
    rw [show r + ((0 : Nat) : Int) = r by simp] at h0
    simp only [List.getElem_cons_zero] at h0
    rw [h0]
    have hrec := ih (r + 1) (fun a ha => by
      have := hrow (a + 1) (by simpa using ha)
      rw [show r + ((a + 1 : Nat) : Int) = (r + 1) + (a : Int) by push_cast; ring] at this
      simp only [List.getElem_cons_succ] at this
      exact this)
    rw [hrec]

/-- C7: for every maze text that constructs successfully, the base
renderer `__str__` reproduces the normalized grid: the kept (non-empty,
non-comment) rows reappear character for character in order, each row
followed by a newline. -/
theorem C7_construct_then_render_roundtrip (ls : List (List Char)) (m : Maze)
    (h : Maze.initLines ls = .ok m) :
    m.strRows = some (ls.filter keepLine) ∧
    m.str = some (((ls.filter keepLine).map (fun row => row ++ ['\n'])).flatten) := by
  obtain ⟨l0, rest, s, hraw, hlen, hv, hocc, hm⟩ := initLines_ok_elim ls m h
  have hgrid : m.grid = gridCells (l0 :: rest) 0 := by rw [hm]
  have hcorner : m.grid_corner = ((l0 :: rest).length, l0.length) := by rw [hm]
  have hrows : m.strRows = some (l0 :: rest) := by
    rw [Maze.strRows, hcorner]
    have := strRowsFrom_eval m (l0 :: rest) 0 (fun a ha => by
      have hlen_a : ((l0 :: rest)[a]).length = l0.length :=
        hlen ((l0 :: rest)[a]) (List.getElem_mem ha)
      rw [show m.grid_corner.2 = ((l0 :: rest)[a]).length by rw [hcorner]; exact hlen_a.symm]
      apply strRowFrom_eval m ((0 : Int) + (a : Int)) ((l0 :: rest)[a]) 0
      · intro k hk
        rw [hgrid, show ((0 : Int) + (a : Int), (0 : Int) + (k : Int))
              = ((0 : Int) + (a : Int), (k : Int)) by simp]
        exact gridCells_find (l0 :: rest) 0 a ha k hk
      · intro ch hch
        exact hv ((l0 :: rest)[a]) (List.getElem_mem ha) ch hch)
    rw [show m.strRowsFrom 0 (l0 :: rest).length
          = m.strRowsFrom 0 ((l0 :: rest).length, l0.length).1 from rfl] at this
    exact this
  rw [hraw]
  refine ⟨hrows, ?_⟩
  rw [Maze.str, hrows]
  rfl

/-- Witness for C7 at the 3x3 example maze. -/
theorem C7_construct_then_render_roundtrip_witness :
    exMaze.strRows = some (exLines.filter keepLine) ∧
    exMaze.str = some (((exLines.filter keepLine).map (fun row => row ++ ['\n'])).flatten) :=
  C7_construct_then_render_roundtrip exLines exMaze rfl

/-! ### C8: start-count validation -/

/-- Counterexample to C8 as stated: the text with rows `"S"`, `"X"`, `"S"`
contains two `'S'` characters, yet construction fails with
`InvalidMazeChar` (for the `'X'` scanned before the second `'S'`), not
with the duplicate-start error. -/
theorem C8_counterexample :
    (sPositions [['S'], ['X'], ['S']] 0).length = 2 ∧
    Maze.initLines [['S'], ['X'], ['S']] = .error (.invalidMazeChar 'X' (1, 0)) ∧
    failsWithMultipleStart (Maze.initLines [['S'], ['X'], ['S']]) = false := by
  refine ⟨by decide, rfl, rfl⟩

/-- C8 (amended): for texts whose kept rows have equal length and only
recognized characters, two or more `'S'` characters make construction
fail with the duplicate-start error at the second occurrence in
row-major order, and zero `'S'` characters make it fail with the
missing-start error. -/
theorem C8_start_count_validation (ls : List (List Char)) (l0 : List Char)
    (rest : List (List Char)) (hraw : ls.filter keepLine = l0 :: rest)
    (hlen : ∀ l ∈ l0 :: rest, l.length = l0.length)
    (hv : AllCharsValid (l0 :: rest)) :
    (∀ q1 q2 T, sPositions (l0 :: rest) 0 = q1 :: q2 :: T →
      Maze.initLines ls = .error (.multipleStartError q2)) ∧
    (sPositions (l0 :: rest) 0 = [] → Maze.initLines ls = .error .noStartError) := by
  have hrun := initLines_run ls l0 rest hraw hlen hv
  constructor
  · intro q1 q2 T hocc
    rw [hrun, hocc]
  · intro hocc
    rw [hrun, hocc]

/-- Witness for C8 (amended): a maze with a second `'S'` fails with the
duplicate-start error at the second occurrence `(2, 0)`, and a maze with
no `'S'` fails with the missing-start error. -/
theorem C8_start_count_validation_witness :
    Maze.initLines [['S'], [' '], ['S']] = .error (.multipleStartError (2, 0)) ∧
    Maze.initLines [[' ']] = .error .noStartError := by
  constructor
  · exact (C8_start_count_validation [['S'], [' '], ['S']] ['S'] [[' '], ['S']]
      rfl (by decide) (by unfold AllCharsValid; decide)).1 (0, 0) (2, 0) [] (by decide)
  · exact (C8_start_count_validation [[' ']] [' '] []
      rfl (by decide) (by unfold AllCharsValid; decide)).2 (by decide)

/-! ### Lemmas about the shared neighbour scan -/

theorem mem_pointNeighbours_iff (p q : Point) :
    q ∈ pointNeighbours p ↔ manhattanDist p q = 1 := by
  rw [pointNeighbours, manhattanDist]
  simp only [List.mem_cons, List.not_mem_nil, or_false]
  constructor
  · intro h
    rcases h with h | h | h | h <;> subst h <;> simp
  · intro h
    have h1 : q = (q.1, q.2) := rfl
    have h2 : p = (p.1, p.2) := rfl
    rw [h1, h2]
    simp only [Prod.mk.injEq]
    omega

theorem validNeighbours_error (g : Grid) (route : List Point) :
    ∀ (nbs : List Point) (nb : Point),
      validNeighbours g route nbs = .error nb →
      nb ∈ nbs ∧ gridFind g nb = some CellType.END := by
  intro nbs
  induction nbs with
  | nil => intro nb h; exact absurd h (by simp [validNeighbours])
  | cons nb0 rest ih =>
    intro nb h
    rw [validNeighbours] at h
    cases hg : gridFind g nb0 with
    | none =>
      rw [hg] at h
      have := ih nb h
      exact ⟨by simp [this.1], this.2⟩
    | some k =>
      rw [hg] at h
      cases k with
      | WALL =>
        have := ih nb h
        exact ⟨by simp [this.1], this.2⟩
      | END =>
        simp only [Except.error.injEq] at h
        subst h
        exact ⟨by simp, hg⟩
      | FREE =>
        by_cases hin : nb0 ∈ route
        · rw [if_pos hin] at h
          have := ih nb h
          exact ⟨by simp [this.1], this.2⟩
        · rw [if_neg hin] at h
          cases hrest : validNeighbours g route rest with
          | error e =>
            rw [hrest] at h
            simp only [Except.map, Except.error.injEq] at h
            subst h
            have := ih e hrest
            exact ⟨by simp [this.1], this.2⟩
          | ok out =>
            rw [hrest] at h
            exact absurd h (by simp [Except.map])
      | START =>
        by_cases hin : nb0 ∈ route
        · rw [if_pos hin] at h
          have := ih nb h
          exact ⟨by simp [this.1], this.2⟩
        · rw [if_neg hin] at h
          cases hrest : validNeighbours g route rest with
          | error e =>
            rw [hrest] at h
            simp only [Except.map, Except.error.injEq] at h
            subst h
            have := ih e hrest
            exact ⟨by simp [this.1], this.2⟩
          | ok out =>
            rw [hrest] at h
            exact absurd h (by simp [Except.map])

theorem validNeighbours_error_of_end (g : Grid) (route : List Point) :
    ∀ (nbs : List Point), (∃ nb ∈ nbs, gridFind g nb = some CellType.END) →
      ∃ nb, validNeighbours g route nbs = .error nb := by
  intro nbs
  induction nbs with
  | nil => intro h; exact absurd h (by simp)
  | cons nb0 rest ih =>
    intro h
    rw [validNeighbours]
    obtain ⟨nb, hmem, hend⟩ := h
    rcases List.mem_cons.mp hmem with h1 | h1
    · subst h1
      rw [hend]
      exact ⟨nb, rfl⟩
    · cases hg : gridFind g nb0 with
      | none => exact ih ⟨nb, h1, hend⟩
      | some k =>
        cases k with
        | WALL => exact ih ⟨nb, h1, hend⟩
        | END => exact ⟨nb0, rfl⟩
        | FREE =>
          simp only
          by_cases hin : nb0 ∈ route
          · rw [if_pos hin]
            exact ih ⟨nb, h1, hend⟩
          · rw [if_neg hin]
            obtain ⟨e, he⟩ := ih ⟨nb, h1, hend⟩
            rw [he]
            exact ⟨e, rfl⟩
        | START =>
          simp only
          by_cases hin : nb0 ∈ route
          · rw [if_pos hin]
            exact ih ⟨nb, h1, hend⟩
          · rw [if_neg hin]
            obtain ⟨e, he⟩ := ih ⟨nb, h1, hend⟩
            rw [he]
            exact ⟨e, rfl⟩

theorem validNeighbours_ok (g : Grid) (route : List Point) :
    ∀ (nbs out : List Point), validNeighbours g route nbs = .ok out →
      (∀ nb ∈ nbs, gridFind g nb ≠ some CellType.END) ∧
      (∀ x, x ∈ out ↔ x ∈ nbs ∧ FreeCell g x ∧ x ∉ route) := by
  intro nbs
  induction nbs with
  | nil =>
    intro out h
    rw [validNeighbours] at h
    simp only [Except.ok.injEq] at h
    subst h
    exact ⟨by simp, by simp⟩
  | cons nb0 rest ih =>
    intro out h
    rw [validNeighbours] at h
    cases hg : gridFind g nb0 with
    | none =>
      rw [hg] at h
      obtain ⟨hnoend, hiff⟩ := ih out h
      refine ⟨?_, ?_⟩
      · intro nb hnb
        rcases List.mem_cons.mp hnb with h1 | h1
        · subst h1; simp [hg]
        · exact hnoend nb h1
      · intro x
        rw [hiff x]
        constructor
        · rintro ⟨hm, hf, hr⟩
          exact ⟨by simp [hm], hf, hr⟩
        · rintro ⟨hm, hf, hr⟩
          rcases List.mem_cons.mp hm with h1 | h1
          · subst h1
            rw [FreeCell, hg] at hf
            exact absurd hf.1 (by simp)
          · exact ⟨h1, hf, hr⟩
    | some k =>
      rw [hg] at h
      cases k with
      | WALL =>
        obtain ⟨hnoend, hiff⟩ := ih out h
        refine ⟨?_, ?_⟩
        · intro nb hnb
          rcases List.mem_cons.mp hnb with h1 | h1
          · subst h1; simp [hg]
          · exact hnoend nb h1
        · intro x
          rw [hiff x]
          constructor
          · rintro ⟨hm, hf, hr⟩
            exact ⟨by simp [hm], hf, hr⟩
          · rintro ⟨hm, hf, hr⟩
            rcases List.mem_cons.mp hm with h1 | h1
            · subst h1
              rw [FreeCell, hg] at hf
              exact absurd hf.2.1 (by simp)
            · exact ⟨h1, hf, hr⟩
      | END => exact absurd h (by simp)
      | FREE =>
        by_cases hin : nb0 ∈ route
        · rw [if_pos hin] at h
          obtain ⟨hnoend, hiff⟩ := ih out h
          refine ⟨?_, ?_⟩
          · intro nb hnb
            rcases List.mem_cons.mp hnb with h1 | h1
            · subst h1; simp [hg]
            · exact hnoend nb h1
          · intro x
            rw [hiff x]
            constructor
            · rintro ⟨hm, hf, hr⟩
              exact ⟨by simp [hm], hf, hr⟩
            · rintro ⟨hm, hf, hr⟩
              rcases List.mem_cons.mp hm with h1 | h1
              · subst h1; exact absurd hin hr
              · exact ⟨h1, hf, hr⟩
        · rw [if_neg hin] at h
          cases hrest : validNeighbours g route rest with
          | error e =>
            rw [hrest] at h
            exact absurd h (by simp [Except.map])
          | ok out' =>
            rw [hrest] at h
            simp only [Except.map, Except.ok.injEq] at h
            subst h
            obtain ⟨hnoend, hiff⟩ := ih out' hrest
            refine ⟨?_, ?_⟩
            · intro nb hnb
              rcases List.mem_cons.mp hnb with h1 | h1
              · subst h1; simp [hg]
              · exact hnoend nb h1
            · intro x
              constructor
              · intro hx
                rcases List.mem_cons.mp hx with h1 | h1
                · subst h1
                  exact ⟨by simp, ⟨by simp [hg], by simp [hg], by simp [hg]⟩, hin⟩
                · obtain ⟨hm, hf, hr⟩ := (hiff x).mp h1
                  exact ⟨by simp [hm], hf, hr⟩
              · rintro ⟨hm, hf, hr⟩
                rcases List.mem_cons.mp hm with h1 | h1
                · subst h1; simp
                · simp only [List.mem_cons]
                  exact Or.inr ((hiff x).mpr ⟨h1, hf, hr⟩)
      | START =>
        by_cases hin : nb0 ∈ route
        · rw [if_pos hin] at h
          obtain ⟨hnoend, hiff⟩ := ih out h
          refine ⟨?_, ?_⟩
          · intro nb hnb
            rcases List.mem_cons.mp hnb with h1 | h1
            · subst h1; simp [hg]
            · exact hnoend nb h1
          · intro x
            rw [hiff x]
            constructor
            · rintro ⟨hm, hf, hr⟩
              exact ⟨by simp [hm], hf, hr⟩
            · rintro ⟨hm, hf, hr⟩
              rcases List.mem_cons.mp hm with h1 | h1
              · subst h1; exact absurd hin hr
              · exact ⟨h1, hf, hr⟩
        · rw [if_neg hin] at h
          cases hrest : validNeighbours g route rest with
          | error e =>
            rw [hrest] at h
            exact absurd h (by simp [Except.map])
          | ok out' =>
            rw [hrest] at h
            simp only [Except.map, Except.ok.injEq] at h
            subst h
            obtain ⟨hnoend, hiff⟩ := ih out' hrest
            refine ⟨?_, ?_⟩
            · intro nb hnb
              rcases List.mem_cons.mp hnb with h1 | h1
              · subst h1; simp [hg]
              · exact hnoend nb h1
            · intro x
              constructor
              · intro hx
                rcases List.mem_cons.mp hx with h1 | h1
                · subst h1
                  exact ⟨by simp, ⟨by simp [hg], by simp [hg], by simp [hg]⟩, hin⟩
                · obtain ⟨hm, hf, hr⟩ := (hiff x).mp h1
                  exact ⟨by simp [hm], hf, hr⟩
              · rintro ⟨hm, hf, hr⟩
                rcases List.mem_cons.mp hm with h1 | h1
                · subst h1; simp
                · simp only [List.mem_cons]
                  exact Or.inr ((hiff x).mpr ⟨h1, hf, hr⟩)

/-! ### Candidate routes: extension, solution and decomposition -/

theorem CandRoute_ne_nil (g : Grid) (s : Point) (r : List Point)
    (hc : CandRoute g s r) : r ≠ [] := by
  intro hcontra
  rw [hcontra] at hc
  exact absurd hc.1 (by simp)

theorem CandRoute_append (g : Grid) (s : Point) (r : List Point) (last nb : Point)
    (hc : CandRoute g s r) (hlast : r.getLast? = some last)
    (hnb : nb ∈ pointNeighbours last) (hfree : FreeCell g nb) (hnr : nb ∉ r) :
    CandRoute g s (r ++ [nb]) := by
  obtain ⟨hhead, hchain, hnodup, hmem⟩ := hc
  refine ⟨?_, ?_, ?_, ?_⟩
  · rw [List.head?_append, hhead]
    rfl
  · rw [List.chain'_append]
    refine ⟨hchain, List.chain'_singleton nb, ?_⟩
    intro x hx y hy
    rw [hlast] at hx
    simp only [Option.mem_def, Option.some.injEq] at hx
    simp only [List.head?_cons, Option.mem_def, Option.some.injEq] at hy
    subst hx
    subst hy
    exact hnb
  · rw [List.nodup_append]
    refine ⟨hnodup, by simp, ?_⟩
    intro x hx hx'
    simp only [List.mem_singleton] at hx'
    subst hx'
    exact hnr hx
  · intro p hp
    rcases List.mem_append.mp hp with h1 | h1
    · exact hmem p h1
    · simp only [List.mem_singleton] at h1
      subst h1
      exact hfree

theorem CandRoute_solution (g : Grid) (s : Point) (r : List Point) (last nb : Point)
    (hc : CandRoute g s r) (hlast : r.getLast? = some last)
    (hnb : nb ∈ pointNeighbours last) (hend : gridFind g nb = some CellType.END) :
    IsValidPath g s (r ++ [nb]) := by
  obtain ⟨hhead, hchain, hnodup, hmem⟩ := hc
  have hnr : nb ∉ r := by
    intro hcontra
    have := (hmem nb hcontra).2.2
    exact this hend
  refine ⟨?_, ⟨nb, List.getLast?_concat r, hend⟩, ?_, ?_, ?_⟩
  · rw [List.head?_append, hhead]
    rfl
  · have hchain2 : List.Chain' (fun a b => b ∈ pointNeighbours a) (r ++ [nb]) := by
      rw [List.chain'_append]
      refine ⟨hchain, List.chain'_singleton nb, ?_⟩
      intro x hx y hy
      rw [hlast] at hx
      simp only [Option.mem_def, Option.some.injEq] at hx
      simp only [List.head?_cons, Option.mem_def, Option.some.injEq] at hy
      subst hx
      subst hy
      exact hnb
    exact hchain2.imp (fun a b hab => (mem_pointNeighbours_iff a b).mp hab)
  · rw [List.nodup_append]
    refine ⟨hnodup, by simp, ?_⟩
    intro x hx hx'
    simp only [List.mem_singleton] at hx'
    subst hx'
    exact hnr hx
  · intro p hp
    rcases List.mem_append.mp hp with h1 | h1
    · obtain ⟨hs1, hs2, _⟩ := hmem p h1
      exact ⟨hs1, hs2⟩
    · simp only [List.mem_singleton] at h1
      subst h1
      exact ⟨by simp [hend], by simp [hend]⟩

theorem CandRoute_decompose (g : Grid) (s : Point) (r : List Point) (nb : Point)
    (hc : CandRoute g s (r ++ [nb])) (hr : r ≠ []) :
    CandRoute g s r ∧
    (∃ last, r.getLast? = some last ∧ nb ∈ pointNeighbours last) ∧
    FreeCell g nb ∧ nb ∉ r := by
  obtain ⟨hhead, hchain, hnodup, hmem⟩ := hc
  rw [List.chain'_append] at hchain
  rw [List.nodup_append] at hnodup
  obtain ⟨last, hlast⟩ := List.getLast?_isSome.mpr hr |> Option.isSome_iff_exists.mp
  refine ⟨⟨?_, hchain.1, hnodup.1, fun p hp => hmem p (by simp [hp])⟩, ?_, ?_, ?_⟩
  · rw [List.head?_append] at hhead
    cases hh : r.head? with
    | none => exact absurd hh (by simp [hr])
    | some x =>
      rw [hh] at hhead
      simp only [Option.or_some] at hhead
      exact hhead
  · refine ⟨last, hlast, ?_⟩
    have := hchain.2.2 last (by simp [hlast]) nb (by simp)
    exact this
  · exact hmem nb (by simp)
  · intro hcontra
    exact hnodup.2.2 hcontra (by simp)

/-! ### DFS soundness -/

theorem dfsBacktrack_inv (g : Grid) (s : Point) :
    ∀ (framesRev : List (List Point)) (routeRev : List Point)
      (r' : List Point) (f' : List (List Point)),
      CandRoute g s routeRev.reverse → FramesOK g routeRev framesRev →
      dfsBacktrack routeRev framesRev = some (r', f') →
      CandRoute g s r'.reverse ∧ FramesOK g r' f' := by
  intro framesRev
  induction framesRev with
  | nil =>
    intro routeRev r' f' _ _ h
    cases routeRev <;> simp [dfsBacktrack] at h
  | cons frame frest ih =>
    intro routeRev r' f' hcand hframes h
    cases routeRev with
    | nil => exact absurd hframes (by simp [FramesOK])
    | cons cur rrest =>
      cases rrest with
      | nil => exact absurd hframes (by simp [FramesOK])
      | cons prev rest =>
        simp only [FramesOK] at hframes
        have hcand' : CandRoute g s (prev :: rest).reverse := by
          rw [List.reverse_cons] at hcand
          exact (CandRoute_decompose g s _ cur hcand (by simp)).1
        cases frame with
        | nil =>
          rw [dfsBacktrack] at h
          exact ih (prev :: rest) r' f' hcand' hframes.2 h
        | cons f0 fs =>
          rw [dfsBacktrack] at h
          simp only [Option.some.injEq, Prod.mk.injEq] at h
          obtain ⟨hr', hf'⟩ := h
          subst hr'
          subst hf'
          have hx := hframes.1 ((f0 :: fs).getLast (List.cons_ne_nil f0 fs))
            (List.getLast_mem (List.cons_ne_nil f0 fs))
          constructor
          · rw [List.reverse_cons]
            refine CandRoute_append g s (prev :: rest).reverse prev _ hcand' ?_ hx.1
              hx.2.1 ?_
            · rw [List.getLast?_reverse]
              rfl
            · rw [List.mem_reverse]
              exact hx.2.2
          · simp only [FramesOK]
            refine ⟨?_, hframes.2⟩
            intro f hf
            exact hframes.1 f ((List.dropLast_sublist (f0 :: fs)).subset hf)

theorem dfsLoop_sound (g : Grid) (s : Point) :
    ∀ (fuel : Nat) (routeRev : List Point) (framesRev : List (List Point))
      (p : List Point),
      CandRoute g s routeRev.reverse → FramesOK g routeRev framesRev →
      dfsLoop g fuel routeRev framesRev = .found p →
      IsValidPath g s p := by
  intro fuel
  induction fuel with
  | zero =>
    intro routeRev framesRev p _ _ h
    exact absurd h (by simp [dfsLoop])
  | succ f ih =>
    intro routeRev framesRev p hcand hframes h
    rw [dfsLoop.eq_def] at h
    cases routeRev with
    | nil => exact absurd h (by simp)
    | cons cur rrest =>
      simp only at h
      cases hvn : validNeighbours g (cur :: rrest) (pointNeighbours cur) with
      | error nb =>
        rw [hvn] at h
        simp only [SearchOut.found.injEq] at h
        subst h
        have hve := validNeighbours_error g (cur :: rrest) (pointNeighbours cur) nb hvn
        exact CandRoute_solution g s (cur :: rrest).reverse cur nb hcand
          (by rw [List.getLast?_reverse]; rfl) hve.1 hve.2
      | ok nbs =>
        rw [hvn] at h
        cases nbs with
        | nil =>
          by_cases hemp : (framesRev.isEmpty : Bool) = true
          · rw [if_pos hemp] at h
            exact absurd h (by simp)
          · rw [if_neg hemp] at h
            cases hbt : dfsBacktrack (cur :: rrest) framesRev with
            | none =>
              rw [hbt] at h
              exact absurd h (by simp)
            | some rf =>
              rcases rf with ⟨r', f'⟩
              rw [hbt] at h
              have hinv := dfsBacktrack_inv g s framesRev (cur :: rrest) r' f'
                hcand hframes hbt
              exact ih r' f' p hinv.1 hinv.2 h
        | cons n ns =>
          have hok := validNeighbours_ok g (cur :: rrest) (pointNeighbours cur)
            (n :: ns) hvn
          have hx := (hok.2 ((n :: ns).getLast (List.cons_ne_nil n ns))).mp
            (List.getLast_mem (List.cons_ne_nil n ns))
          have hcand2 : CandRoute g s
              (((n :: ns).getLast (List.cons_ne_nil n ns) :: cur :: rrest)).reverse := by
            rw [List.reverse_cons]
            refine CandRoute_append g s (cur :: rrest).reverse cur _ hcand
              (by rw [List.getLast?_reverse]; rfl) hx.1 hx.2.1 ?_
            rw [List.mem_reverse]
            exact hx.2.2
          have hframes2 : FramesOK g
              ((n :: ns).getLast (List.cons_ne_nil n ns) :: cur :: rrest)
              ((n :: ns).dropLast :: framesRev) := by
            simp only [FramesOK]
            refine ⟨?_, hframes⟩
            intro fq hfq
            exact (hok.2 fq).mp ((List.dropLast_sublist (n :: ns)).subset hfq)
          exact ih _ _ p hcand2 hframes2 h

/-! ### BFS soundness -/

theorem bfsExpandRoute_error (g : Grid) (route sol : List Point)
    (h : bfsExpandRoute g route = .error sol) :
    ∃ last nb, route.getLast? = some last ∧ nb ∈ pointNeighbours last ∧
      gridFind g nb = some CellType.END ∧ sol = route ++ [nb] := by
  rw [bfsExpandRoute] at h
  cases hl : route.getLast? with
  | none =>
    rw [hl] at h
    exact absurd h (by simp)
  | some last =>
    rw [hl] at h
    simp only at h
    cases hvn : validNeighbours g route (pointNeighbours last) with
    | error nb =>
      rw [hvn] at h
      simp only [Except.error.injEq] at h
      have hve := validNeighbours_error g route (pointNeighbours last) nb hvn
      exact ⟨last, nb, rfl, hve.1, hve.2, h.symm⟩
    | ok nbs =>
      rw [hvn] at h
      exact absurd h (by simp)

theorem bfsExpandRoute_ok (g : Grid) (route : List Point) (exts : List (List Point))
    (h : bfsExpandRoute g route = .ok exts) :
    ∀ r' ∈ exts, ∃ last nb, route.getLast? = some last ∧
      nb ∈ pointNeighbours last ∧ FreeCell g nb ∧ nb ∉ route ∧ r' = route ++ [nb] := by
  rw [bfsExpandRoute] at h
  cases hl : route.getLast? with
  | none =>
    rw [hl] at h
    simp only [Except.ok.injEq] at h
    subst h
    intro r' hr'
    exact absurd hr' (by simp)
  | some last =>
    rw [hl] at h
    simp only at h
    cases hvn : validNeighbours g route (pointNeighbours last) with
    | error nb =>
      rw [hvn] at h
      exact absurd h (by simp)
    | ok nbs =>
      rw [hvn] at h
      simp only [Except.ok.injEq] at h
      subst h
      intro r' hr'
      obtain ⟨nb, hnb, hext⟩ := List.mem_map.mp hr'
      obtain ⟨hm, hf, hr⟩ := ((validNeighbours_ok g route (pointNeighbours last)
        nbs hvn).2 nb).mp hnb
      exact ⟨last, nb, rfl, hm, hf, hr, hext.symm⟩

theorem bfsRound_error (g : Grid) :
    ∀ (routes : List (List Point)) (sol : List Point),
      bfsRound g routes = .error sol →
      ∃ route ∈ routes, ∃ last nb, route.getLast? = some last ∧
        nb ∈ pointNeighbours last ∧ gridFind g nb = some CellType.END ∧
        sol = route ++ [nb] := by
  intro routes
  induction routes with
  | nil => intro sol h; exact absurd h (by simp [bfsRound])
  | cons route rest ih =>
    intro sol h
    rw [bfsRound] at h
    cases hexp : bfsExpandRoute g route with
    | error sol' =>
      rw [hexp] at h
      simp only [Except.error.injEq] at h
      obtain ⟨last, nb, h1, h2, h3, h4⟩ := bfsExpandRoute_error g route sol' hexp
      exact ⟨route, by simp, last, nb, h1, h2, h3, h ▸ h4⟩
    | ok exts =>
      rw [hexp] at h
      cases hrest : bfsRound g rest with
      | error sol' =>
        rw [hrest] at h
        simp only [Except.error.injEq] at h
        obtain ⟨route', hmem, rest'⟩ := ih sol' hrest
        exact ⟨route', by simp [hmem], h ▸ rest'⟩
      | ok more =>
        rw [hrest] at h
        exact absurd h (by simp)

theorem bfsRound_ok_mem (g : Grid) :
    ∀ (routes newRoutes : List (List Point)),
      bfsRound g routes = .ok newRoutes →
      ∀ r' ∈ newRoutes, ∃ route ∈ routes, ∃ last nb,
        route.getLast? = some last ∧ nb ∈ pointNeighbours last ∧
        FreeCell g nb ∧ nb ∉ route ∧ r' = route ++ [nb] := by
  intro routes
  induction routes with
  | nil =>
    intro newRoutes h r' hr'
    rw [bfsRound] at h
    simp only [Except.ok.injEq] at h
    subst h
    exact absurd hr' (by simp)
  | cons route rest ih =>
    intro newRoutes h r' hr'
    rw [bfsRound] at h
    cases hexp : bfsExpandRoute g route with
    | error sol' =>
      rw [hexp] at h
      exact absurd h (by simp)
    | ok exts =>
      rw [hexp] at h
      cases hrest : bfsRound g rest with
      | error sol' =>
        rw [hrest] at h
        exact absurd h (by simp)
      | ok more =>
        rw [hrest] at h
        simp only [Except.ok.injEq] at h
        subst h
        rcases List.mem_append.mp hr' with h1 | h1
        · obtain ⟨last, nb, hh⟩ := bfsExpandRoute_ok g route exts hexp r' h1
          exact ⟨route, by simp, last, nb, hh⟩
        · obtain ⟨route', hmem, rest'⟩ := ih more hrest r' h1
          exact ⟨route', by simp [hmem], rest'⟩

theorem bfsLoop_sound (g : Grid) (s : Point) :
    ∀ (fuel : Nat) (routes : List (List Point)) (p : List Point),
      (∀ r ∈ routes, CandRoute g s r) →
      bfsLoop g fuel routes = .found p → IsValidPath g s p := by
  intro fuel
  induction fuel with
  | zero =>
    intro routes p _ h
    exact absurd h (by simp [bfsLoop])
  | succ f ih =>
    intro routes p hcand h
    rw [bfsLoop] at h
    by_cases hemp : (routes.isEmpty : Bool) = true
    · rw [if_pos hemp] at h
      exact absurd h (by simp)
    · rw [if_neg hemp] at h
      cases hround : bfsRound g routes with
      | error sol =>
        rw [hround] at h
        simp only [SearchOut.found.injEq] at h
        subst h
        obtain ⟨route, hmem, last, nb, h1, h2, h3, h4⟩ := bfsRound_error g routes sol hround
        rw [h4]
        exact CandRoute_solution g s route last nb (hcand route hmem) h1 h2 h3
      | ok newRoutes =>
        rw [hround] at h
        refine ih newRoutes p ?_ h
        intro r' hr'
        obtain ⟨route, hmem, last, nb, h1, h2, h3, h4, h5⟩ :=
          bfsRound_ok_mem g routes newRoutes hround r' hr'
        rw [h5]
        exact CandRoute_append g s route last nb (hcand route hmem) h1 h2 h3 h4

theorem breadth_first_search_returns (m : Maze) (p : List Point) :
    (m.breadth_first_search).2 = some p ↔ m.bfsRun = .found p := by
  unfold Maze.breadth_first_search
  cases h : m.bfsRun <;> simp

theorem depth_first_search_returns (m : Maze) (p : List Point) :
    (m.depth_first_search).2 = some p ↔ m.dfsRun = .found p := by
  unfold Maze.depth_first_search
  cases h : m.dfsRun <;> simp

/-! ### C2: the returned paths are valid paths -/

/-- C2: whenever either search returns a path on a constructed maze, that
path starts at the start position, ends at a cell of kind `END`, moves
between Manhattan-distance-1 neighbours, repeats no position, and stays
on the grid off the walls. -/
theorem C2_returned_paths_valid (ls : List (List Char)) (m : Maze)
    (hinit : Maze.initLines ls = .ok m) :
    (∀ p, (m.breadth_first_search).2 = some p → IsValidPath m.grid m.start_point p) ∧
    (∀ p, (m.depth_first_search).2 = some p → IsValidPath m.grid m.start_point p) := by
  have hwf : WellFormedMaze m := initLines_wellFormed ls m hinit
  rw [WellFormedMaze] at hwf
  have hstart : CandRoute m.grid m.start_point [m.start_point] :=
    ⟨rfl, List.chain'_singleton _, by simp,
      fun p hp => by
        simp only [List.mem_singleton] at hp
        subst hp
        exact ⟨by simp [hwf], by simp [hwf], by simp [hwf]⟩⟩
  constructor
  · intro p h
    rw [breadth_first_search_returns] at h
    exact bfsLoop_sound m.grid m.start_point (m.grid.length + 1) [[m.start_point]] p
      (fun r hr => by
        simp only [List.mem_singleton] at hr
        subst hr
        exact hstart) h
  · intro p h
    rw [depth_first_search_returns] at h
    exact dfsLoop_sound m.grid m.start_point (4 ^ (m.grid.length + 1))
      [m.start_point] [] p (by simpa using hstart) (by simp [FramesOK]) h

/-- Witness for C2: the example maze's two returned paths are valid. -/
theorem C2_returned_paths_valid_witness :
    IsValidPath exMaze.grid exMaze.start_point exBfsPath ∧
    IsValidPath exMaze.grid exMaze.start_point exDfsPath :=
  ⟨(C2_returned_paths_valid exLines exMaze rfl).1 exBfsPath rfl,
    (C2_returned_paths_valid exLines exMaze rfl).2 exDfsPath rfl⟩

/-! ### Reduction of a valid path to a candidate with an END neighbour -/

theorem takeToEnd_decomp (g : Grid) :
    ∀ (q : List Point), ∃ t, q = takeToEnd g q ++ t := by
  intro q
  induction q with
  | nil => exact ⟨[], rfl⟩
  | cons p rest ih =>
    rw [takeToEnd]
    by_cases h : gridFind g p = some CellType.END
    · rw [if_pos h]
      exact ⟨rest, rfl⟩
    · rw [if_neg h]
      obtain ⟨t, ht⟩ := ih
      exact ⟨t, by rw [List.cons_append, ← ht]⟩

theorem takeToEnd_head (g : Grid) (q : List Point) :
    (takeToEnd g q).head? = q.head? := by
  cases q with
  | nil => rfl
  | cons p rest =>
    rw [takeToEnd]
    by_cases h : gridFind g p = some CellType.END
    · rw [if_pos h]
      rfl
    · rw [if_neg h]
      rfl

theorem takeToEnd_ne_nil (g : Grid) (q : List Point) (hq : q ≠ []) :
    takeToEnd g q ≠ [] := by
  cases q with
  | nil => exact absurd rfl hq
  | cons p rest =>
    rw [takeToEnd]
    by_cases h : gridFind g p = some CellType.END
    · rw [if_pos h]; simp
    · rw [if_neg h]; simp

theorem takeToEnd_last (g : Grid) :
    ∀ (q : List Point) (e : Point), q.getLast? = some e →
      gridFind g e = some CellType.END →
      ∃ e2, (takeToEnd g q).getLast? = some e2 ∧ gridFind g e2 = some CellType.END := by
  intro q
  induction q with
  | nil => intro e he _; exact absurd he (by simp)
  | cons p rest ih =>
    intro e hlast hend
    rw [takeToEnd]
    by_cases h : gridFind g p = some CellType.END
    · rw [if_pos h]
      exact ⟨p, rfl, h⟩
    · rw [if_neg h]
      cases rest with
      | nil =>
        simp only [List.getLast?_singleton, Option.some.injEq] at hlast
        subst hlast
        exact absurd hend h
      | cons r2 rrest =>
        have hl2 : (r2 :: rrest).getLast? = some e := by
          rw [← List.getLast?_cons_cons (a := p)]
          exact hlast
        obtain ⟨e2, h1, h2⟩ := ih e hl2 hend
        refine ⟨e2, ?_, h2⟩
        have hne := takeToEnd_ne_nil g (r2 :: rrest) (by simp)
        cases htk : takeToEnd g (r2 :: rrest) with
        | nil => exact absurd htk hne
        | cons x xs =>
          rw [htk] at h1
          rw [List.getLast?_cons_cons]
          exact h1

theorem takeToEnd_dropLast_notEnd (g : Grid) :
    ∀ (q : List Point), ∀ x ∈ (takeToEnd g q).dropLast,
      gridFind g x ≠ some CellType.END := by
  intro q
  induction q with
  | nil => intro x hx; exact absurd hx (by simp [takeToEnd])
  | cons p rest ih =>
    intro x hx
    rw [takeToEnd] at hx
    by_cases h : gridFind g p = some CellType.END
    · rw [if_pos h] at hx
      exact absurd hx (by simp)
    · rw [if_neg h] at hx
      cases htk : takeToEnd g rest with
      | nil =>
        rw [htk] at hx
        exact absurd hx (by simp)
      | cons y ys =>
        rw [htk, List.dropLast_cons_of_ne_nil (by simp)] at hx
        rcases List.mem_cons.mp hx with h1 | h1
        · subst h1
          exact h
        · exact ih x (by rw [htk]; exact h1)

theorem validPath_reduction (g : Grid) (s : Point) (q : List Point)
    (hq : IsValidPath g s q) (hs : gridFind g s = some CellType.START) :
    ∃ c last nb, CandRoute g s c ∧ c.getLast? = some last ∧
      nb ∈ pointNeighbours last ∧ gridFind g nb = some CellType.END ∧
      c.length + 1 ≤ q.length := by
  obtain ⟨hhead, ⟨e, helast, heend⟩, hchain, hnodup, hmem⟩ := hq
  obtain ⟨t, ht⟩ := takeToEnd_decomp g q
  have hThead : (takeToEnd g q).head? = some s := by rw [takeToEnd_head, hhead]
  have hTne : takeToEnd g q ≠ [] := by
    intro hcontra
    rw [hcontra] at hThead
    simp at hThead
  obtain ⟨e2, hTlast, hTend⟩ := takeToEnd_last g q e helast heend
  have hTchainN : List.Chain' (fun a b => b ∈ pointNeighbours a) (takeToEnd g q) := by
    have : List.Chain' (fun p1 q1 => manhattanDist p1 q1 = 1) (takeToEnd g q) := by
      rw [ht] at hchain
      exact (List.chain'_append.mp hchain).1
    exact this.imp (fun a b hab => (mem_pointNeighbours_iff a b).mpr hab)
  have hTnodup : (takeToEnd g q).Nodup := by
    rw [ht] at hnodup
    exact (List.nodup_append.mp hnodup).1
  have hTmem : ∀ x ∈ takeToEnd g q, TraversableCell g x := by
    intro x hx
    exact hmem x (by rw [ht]; simp [hx])
  have hTsplit := List.dropLast_append_getLast hTne
  have hgl : (takeToEnd g q).getLast hTne = e2 := by
    have := List.getLast?_eq_getLast (takeToEnd g q) hTne
    rw [this] at hTlast
    simp only [Option.some.injEq] at hTlast
    exact hTlast
  have hcne : (takeToEnd g q).dropLast ≠ [] := by
    intro hcontra
    have h1 : takeToEnd g q = [e2] := by
      rw [← hTsplit, hcontra, hgl]
      rfl
    rw [h1] at hThead
    simp only [List.head?_cons, Option.some.injEq] at hThead
    rw [hThead] at hTend
    rw [hs] at hTend
    simp at hTend
  obtain ⟨last, hlast⟩ :=
    Option.isSome_iff_exists.mp (List.getLast?_isSome.mpr hcne)
  refine ⟨(takeToEnd g q).dropLast, last, e2, ?_, hlast, ?_, hTend, ?_⟩
  · refine ⟨?_, ?_, ?_, ?_⟩
    · cases hT : takeToEnd g q with
      | nil => exact absurd hT hTne
      | cons x xs =>
        have hxs : xs ≠ [] := by
          intro hcontra
          rw [hT, hcontra] at hcne
          exact hcne (by rfl)
        rw [List.dropLast_cons_of_ne_nil hxs]
        rw [hT] at hThead
        exact hThead
    · have := hTchainN
      rw [← hTsplit] at this
      exact (List.chain'_append.mp this).1
    · exact hTnodup.sublist (List.dropLast_sublist _)
    · intro x hx
      have htrav := hTmem x ((List.dropLast_sublist _).subset hx)
      exact ⟨htrav.1, htrav.2, takeToEnd_dropLast_notEnd g q x hx⟩
  · have := hTchainN
    rw [← hTsplit] at this
    have hrel := (List.chain'_append.mp this).2.2
    exact hrel last (by simp [hlast]) e2 (by simp [hgl])
  · have hlen : (takeToEnd g q).length ≤ q.length := by
      conv_rhs => rw [ht]
      rw [List.length_append]
      omega
    have : (takeToEnd g q).dropLast.length + 1 = (takeToEnd g q).length := by
      have hpos : 0 < (takeToEnd g q).length := List.length_pos.mpr hTne
      rw [List.length_dropLast]
      omega
    omega

/-! ### Candidate length bound and prefix candidates -/

theorem gridFind_isSome_mem_keys (g : Grid) (p : Point)
    (h : (gridFind g p).isSome) : p ∈ g.map Prod.fst := by
  induction g with
  | nil => simp [gridFind] at h
  | cons e rest ih =>
    rcases e with ⟨qq, k⟩
    rw [gridFind] at h
    by_cases hpq : p = qq
    · simp [hpq]
    · rw [if_neg hpq] at h
      simp only [List.map_cons, List.mem_cons]
      exact Or.inr (ih h)

theorem CandRoute_length_le (g : Grid) (s : Point) (r : List Point)
    (hc : CandRoute g s r) : r.length ≤ g.length := by
  obtain ⟨_, _, hnodup, hmem⟩ := hc
  have h1 : r.length = r.toFinset.card := (List.toFinset_card_of_nodup hnodup).symm
  have h2 : r.toFinset ⊆ (g.map Prod.fst).toFinset := by
    intro x hx
    rw [List.mem_toFinset] at hx
    rw [List.mem_toFinset]
    exact gridFind_isSome_mem_keys g x (hmem x hx).1
  have h3 := Finset.card_le_card h2
  have h4 := List.toFinset_card_le (g.map Prod.fst)
  rw [List.length_map] at h4
  omega

theorem CandRoute_take (g : Grid) (s : Point) (c : List Point)
    (hc : CandRoute g s c) (L : Nat) (hL : 1 ≤ L) :
    CandRoute g s (c.take L) := by
  obtain ⟨hhead, hchain, hnodup, hmem⟩ := hc
  refine ⟨?_, hchain.take L, hnodup.sublist (List.take_sublist L c), ?_⟩
  · rw [List.head?_take, if_neg (by omega)]
    exact hhead
  · intro p hp
    exact hmem p ((List.take_sublist L c).subset hp)

/-! ### BFS completeness -/

theorem bfsExpandRoute_ok_complete (g : Grid) (route : List Point)
    (exts : List (List Point)) (h : bfsExpandRoute g route = .ok exts)
    (last nb : Point) (hlast : route.getLast? = some last)
    (hnb : nb ∈ pointNeighbours last) (hfree : FreeCell g nb) (hnr : nb ∉ route) :
    (route ++ [nb]) ∈ exts := by
  rw [bfsExpandRoute, hlast] at h
  simp only at h
  cases hvn : validNeighbours g route (pointNeighbours last) with
  | error e =>
    rw [hvn] at h
    exact absurd h (by simp)
  | ok nbs =>
    rw [hvn] at h
    simp only [Except.ok.injEq] at h
    subst h
    refine List.mem_map.mpr ⟨nb, ?_, rfl⟩
    exact ((validNeighbours_ok g route (pointNeighbours last) nbs hvn).2 nb).mpr
      ⟨hnb, hfree, hnr⟩

theorem bfsRound_ok_complete (g : Grid) :
    ∀ (routes newRoutes : List (List Point)),
      bfsRound g routes = .ok newRoutes →
      ∀ route ∈ routes, ∀ last nb, route.getLast? = some last →
        nb ∈ pointNeighbours last → FreeCell g nb → nb ∉ route →
        (route ++ [nb]) ∈ newRoutes := by
  intro routes
  induction routes with
  | nil =>
    intro newRoutes _ route hmem
    exact absurd hmem (by simp)
  | cons r0 rest ih =>
    intro newRoutes h route hmem last nb hlast hnb hfree hnr
    rw [bfsRound] at h
    cases hexp : bfsExpandRoute g r0 with
    | error sol' =>
      rw [hexp] at h
      exact absurd h (by simp)
    | ok exts =>
      rw [hexp] at h
      cases hrest : bfsRound g rest with
      | error sol' =>
        rw [hrest] at h
        exact absurd h (by simp)
      | ok more =>
        rw [hrest] at h
        simp only [Except.ok.injEq] at h
        subst h
        rcases List.mem_cons.mp hmem with h1 | h1
        · subst h1
          exact List.mem_append.mpr (Or.inl
            (bfsExpandRoute_ok_complete g route exts hexp last nb hlast hnb hfree hnr))
        · exact List.mem_append.mpr (Or.inr
            (ih more hrest route h1 last nb hlast hnb hfree hnr))

theorem bfsRound_error_of_end (g : Grid) :
    ∀ (routes : List (List Point)),
      (∃ route ∈ routes, ∃ last nb, route.getLast? = some last ∧
        nb ∈ pointNeighbours last ∧ gridFind g nb = some CellType.END) →
      ∃ sol, bfsRound g routes = .error sol := by
  intro routes
  induction routes with
  | nil =>
    intro h
    obtain ⟨route, hmem, _⟩ := h
    exact absurd hmem (by simp)
  | cons r0 rest ih =>
    intro h
    rw [bfsRound]
    cases hexp : bfsExpandRoute g r0 with
    | error sol' => exact ⟨sol', rfl⟩
    | ok exts =>
      obtain ⟨route, hmem, last, nb, hlast, hnb, hend⟩ := h
      rcases List.mem_cons.mp hmem with h1 | h1
      · subst h1
        rw [bfsExpandRoute, hlast] at hexp
        simp only at hexp
        obtain ⟨e, he⟩ := validNeighbours_error_of_end g route (pointNeighbours last)
          ⟨nb, hnb, hend⟩
        rw [he] at hexp
        exact absurd hexp (by simp)
      · obtain ⟨sol, hsol⟩ := ih ⟨route, h1, last, nb, hlast, hnb, hend⟩
        rw [hsol]
        exact ⟨sol, rfl⟩

theorem bfsLoop_finds (g : Grid) (s : Point) (c : List Point) (last nb : Point)
    (hc : CandRoute g s c) (hlast : c.getLast? = some last)
    (hnb : nb ∈ pointNeighbours last) (hend : gridFind g nb = some CellType.END) :
    ∀ (d fuel L : Nat) (routes : List (List Point)),
      (∀ r ∈ routes, CandRoute g s r ∧ r.length = L) →
      (∀ r, CandRoute g s r → r.length = L → r ∈ routes) →
      1 ≤ L → L + d = c.length → d < fuel →
      ∃ p, bfsLoop g fuel routes = .found p ∧ p.length ≤ c.length + 1 := by
  intro d
  induction d with
  | zero =>
    intro fuel L routes hsound hcomplete hL hLd hfuel
    cases fuel with
    | zero => omega
    | succ f =>
      have hcL : c.length = L := by omega
      have hcin : c ∈ routes := hcomplete c hc (by omega)
      rw [bfsLoop]
      rw [if_neg (by
        intro hcontra
        rw [List.isEmpty_iff] at hcontra
        rw [hcontra] at hcin
        exact absurd hcin (by simp))]
      obtain ⟨sol, hsol⟩ := bfsRound_error_of_end g routes
        ⟨c, hcin, last, nb, hlast, hnb, hend⟩
      rw [hsol]
      obtain ⟨route, hmem, last', nb', h1, h2, h3, h4⟩ := bfsRound_error g routes sol hsol
      refine ⟨sol, rfl, ?_⟩
      rw [h4, List.length_append]
      have := (hsound route hmem).2
      simp only [List.length_singleton]
      omega
  | succ d ih =>
    intro fuel L routes hsound hcomplete hL hLd hfuel
    cases fuel with
    | zero => omega
    | succ f =>
      have hprefix : c.take L ∈ routes := by
        refine hcomplete (c.take L) (CandRoute_take g s c hc L hL) ?_
        rw [List.length_take]
        omega
      rw [bfsLoop]
      rw [if_neg (by
        intro hcontra
        rw [List.isEmpty_iff] at hcontra
        rw [hcontra] at hprefix
        exact absurd hprefix (by simp))]
      cases hround : bfsRound g routes with
      | error sol =>
        obtain ⟨route, hmem, last', nb', h1, h2, h3, h4⟩ := bfsRound_error g routes sol hround
        refine ⟨sol, rfl, ?_⟩
        rw [h4, List.length_append]
        have := (hsound route hmem).2
        simp only [List.length_singleton]
        omega
      | ok newRoutes =>
        refine ih f (L + 1) newRoutes ?_ ?_ (by omega) (by omega) (by omega)
        · intro r' hr'
          obtain ⟨route, hmem, last', nb', h1, h2, h3, h4, h5⟩ :=
            bfsRound_ok_mem g routes newRoutes hround r' hr'
          obtain ⟨hcand, hlen⟩ := hsound route hmem
          constructor
          · rw [h5]
            exact CandRoute_append g s route last' nb' hcand h1 h2 h3 h4
          · rw [h5, List.length_append]
            simp only [List.length_singleton]
            omega
        · intro r' hcand' hlen'
          have hr'ne : r' ≠ [] := CandRoute_ne_nil g s r' hcand'
          have hdne : r'.dropLast ≠ [] := by
            intro hcontra
            have := List.length_dropLast r'
            rw [hcontra] at this
            simp at this
            omega
          have hsplit := List.dropLast_append_getLast hr'ne
          obtain ⟨hcand2, ⟨last2, hlast2, hnb2⟩, hfree2, hnr2⟩ :=
            CandRoute_decompose g s r'.dropLast (r'.getLast hr'ne)
              (by rw [hsplit]; exact hcand') hdne
          have hdmem : r'.dropLast ∈ routes := by
            refine hcomplete r'.dropLast hcand2 ?_
            have := List.length_dropLast r'
            omega
          have := bfsRound_ok_complete g routes newRoutes hround r'.dropLast hdmem
            last2 (r'.getLast hr'ne) hlast2 hnb2 hfree2 hnr2
          rw [hsplit] at this
          exact this

/-! ### C1: BFS returns a shortest valid path -/

/-- C1: on a constructed maze with at least one valid path from the start
to an `END` cell, `breadth_first_search` returns a path, that path is
valid, its length is minimal among all valid paths, and in particular it
is never longer than any path `depth_first_search` returns. -/
theorem C1_bfs_shortest (ls : List (List Char)) (m : Maze)
    (hinit : Maze.initLines ls = .ok m) (q : List Point)
    (hq : IsValidPath m.grid m.start_point q) :
    ∃ p, (m.breadth_first_search).2 = some p ∧ IsValidPath m.grid m.start_point p ∧
      (∀ q2, IsValidPath m.grid m.start_point q2 → p.length ≤ q2.length) ∧
      (∀ p2, (m.depth_first_search).2 = some p2 → p.length ≤ p2.length) := by
  have hwf : WellFormedMaze m := initLines_wellFormed ls m hinit
  rw [WellFormedMaze] at hwf
  have hstart : CandRoute m.grid m.start_point [m.start_point] :=
    ⟨rfl, List.chain'_singleton _, by simp,
      fun p hp => by
        simp only [List.mem_singleton] at hp
        subst hp
        exact ⟨by simp [hwf], by simp [hwf], by simp [hwf]⟩⟩
  have hfind : ∀ q2, IsValidPath m.grid m.start_point q2 →
      ∃ p, m.bfsRun = .found p ∧ p.length ≤ q2.length := by
    intro q2 hq2
    obtain ⟨c, last, nb, hc, hlast, hnb, hend, hlen⟩ :=
      validPath_reduction m.grid m.start_point q2 hq2 hwf
    have hclen : 1 ≤ c.length :=
      List.length_pos.mpr (CandRoute_ne_nil m.grid m.start_point c hc)
    have hcbound : c.length ≤ m.grid.length := CandRoute_length_le m.grid m.start_point c hc
    obtain ⟨p, hp, hplen⟩ := bfsLoop_finds m.grid m.start_point c last nb hc hlast hnb hend
      (c.length - 1) (m.grid.length + 1) 1 [[m.start_point]]
      (fun r hr => by
        simp only [List.mem_singleton] at hr
        subst hr
        exact ⟨hstart, rfl⟩)
      (fun r hcand hlen1 => by
        cases r with
        | nil => simp at hlen1
        | cons x xs =>
          cases xs with
          | nil =>
            have hx : x = m.start_point := by
              have hh := hcand.1
              simp only [List.head?_cons, Option.some.injEq] at hh
              exact hh
            subst hx
            simp
          | cons y ys =>
            simp only [List.length_cons] at hlen1
            omega)
      (le_refl 1) (by omega) (by omega)
    exact ⟨p, hp, by omega⟩
  obtain ⟨p, hp, hplen⟩ := hfind q hq
  have hminimal : ∀ q2, IsValidPath m.grid m.start_point q2 → p.length ≤ q2.length := by
    intro q2 hq2
    obtain ⟨p2, hp2, hlen2⟩ := hfind q2 hq2
    rw [hp] at hp2
    simp only [SearchOut.found.injEq] at hp2
    rw [hp2]
    exact hlen2
  refine ⟨p, (breadth_first_search_returns m p).mpr hp, ?_, hminimal, ?_⟩
  · exact bfsLoop_sound m.grid m.start_point (m.grid.length + 1) [[m.start_point]] p
      (fun r hr => by
        simp only [List.mem_singleton] at hr
        subst hr
        exact hstart) hp
  · intro p2 hp2
    rw [depth_first_search_returns] at hp2
    have hvalid2 : IsValidPath m.grid m.start_point p2 :=
      dfsLoop_sound m.grid m.start_point (4 ^ (m.grid.length + 1))
        [m.start_point] [] p2 (by simpa using hstart) (by simp [FramesOK]) hp2
    exact hminimal p2 hvalid2

/-- Witness for C1 at the example maze, with the BFS path itself as the
valid path that must exist. -/
theorem C1_bfs_shortest_witness :
    ∃ p, (exMaze.breadth_first_search).2 = some p ∧
      IsValidPath exMaze.grid exMaze.start_point p ∧
      (∀ q2, IsValidPath exMaze.grid exMaze.start_point q2 → p.length ≤ q2.length) ∧
      (∀ p2, (exMaze.depth_first_search).2 = some p2 → p.length ≤ p2.length) :=
  C1_bfs_shortest exLines exMaze rfl exBfsPath
    ⟨rfl, ⟨(2, 2), by decide, by decide⟩,
      by simp only [exBfsPath, List.chain'_cons, List.chain'_singleton]; decide,
      by decide, by unfold TraversableCell; decide⟩
